import Mathlib

/-!
Verification of the cmux repository's networking and git-diff subsystems
against its natural-language specification.

The Rust sources are shallowly embedded: pure functions become Lean
functions over `Nat`/`List Nat` (machine integers and byte strings),
fallible code returns `Option`/`Except`.  Each embedded definition mirrors
one Rust item and keeps its name where Lean allows it.
-/

namespace Cmux

/-- An HTTP response as far as the embedded handlers are concerned:
a status code and a fixed body.  Mirrors `response_with` in
`crates/cmux-proxy/src/lib.rs`, which builds a response from a status
and a message body. -/
structure Response where
  status : Nat
  body : String
deriving DecidableEq, Repr

/-- `response_with(StatusCode::BAD_REQUEST, msg)` from
`crates/cmux-proxy/src/lib.rs`. -/
def badRequest (msg : String) : Response := ⟨400, msg⟩

/-- Digit run value, most significant first (helper for `rustParseUInt`). -/
def digitsVal (cs : List Char) : Nat :=
  cs.foldl (fun a c => a * 10 + (c.toNat - 48)) 0

/-- Rust's `str::parse` for an unsigned integer type with exclusive upper
bound `bound` (`2^16` for `u16`, `2^32` for `u32`): an optional leading
`+`, then one or more ASCII digits, and the value must fit in the type
(overflow is a parse error). -/
def rustParseUInt (bound : Nat) (cs : List Char) : Option Nat :=
  let ds := match cs with
    | '+' :: rest => rest
    | other => other
  if ds ≠ [] ∧ ds.all Char.isDigit then
    let v := digitsVal ds
    if v < bound then some v else none
  else none

/-- Rust `s.parse::<u16>()`. -/
def rustParseU16 (cs : List Char) : Option Nat := rustParseUInt (2 ^ 16) cs

/-- Rust `s.parse::<u32>()`. -/
def rustParseU32 (cs : List Char) : Option Nat := rustParseUInt (2 ^ 32) cs

/-- `http::HeaderValue::to_str`: succeeds iff every byte is visible
ASCII (32–126) or horizontal tab; yields the value as a character list. -/
def headerToStr (bytes : List Nat) : Option (List Char) :=
  if bytes.all (fun b => b == 9 || (32 ≤ b && b ≤ 126)) then
    some (bytes.map Char.ofNat)
  else none

/-- `String.data` as bytes, for building concrete ASCII header values. -/
def strToBytes (s : String) : List Nat := s.data.map Char.toNat

/-- `workspace_ip_from_index` from `crates/cmux-proxy/src/lib.rs`:
`Ipv4Addr::new(127, 18, ((n >> 8) & 0xFF) as u8, (n & 0xFF) as u8)`.
The octets are returned as a quadruple of `Nat`. -/
def workspace_ip_from_index (n : Nat) : Nat × Nat × Nat × Nat :=
  (127, 18, (n >>> 8) % 256, n % 256)

/-- `Ipv4Addr::to_string()`. -/
def ipToString (ip : Nat × Nat × Nat × Nat) : String :=
  Nat.repr ip.1 ++ "." ++ Nat.repr ip.2.1 ++ "." ++ Nat.repr ip.2.2.1 ++ "."
    ++ Nat.repr ip.2.2.2

/-- The trailing decimal-digit suffix of a label, as computed by
`s.chars().rev().take_while(|c| c.is_ascii_digit()) … .rev()` in
`upstream_host_from_headers`. -/
def trailingDigits (s : List Char) : List Char :=
  (s.reverse.takeWhile Char.isDigit).reverse

/-- `upstream_host_from_headers` from `crates/cmux-proxy/src/lib.rs`.
The input is the optional raw value of the `X-Cmux-Workspace-Internal`
header (`none` = header absent).  If the header is present, its trailing
digit run is parsed as a `u32` index; parse failure (no digits, or
overflow) is a 400 error, not a fallback to the default host. -/
def upstream_host_from_headers (hv : Option (List Nat)) (defaultHost : String) :
    Except Response String :=
  match hv with
  | none => .ok defaultHost
  | some bytes =>
    match headerToStr bytes with
    | none => .error (badRequest "X-Cmux-Workspace-Internal: invalid header")
    | some s =>
      match rustParseU32 (trailingDigits s) with
      | some idx => .ok (ipToString (workspace_ip_from_index idx))
      | none => .error (badRequest
          "X-Cmux-Workspace-Internal: expected name ending in digits (e.g., workspace-1)")

/-- `get_port_from_header` from `crates/cmux-proxy/src/lib.rs`.  Input is
the optional raw value of `X-Cmux-Port-Internal`. -/
def get_port_from_header (hv : Option (List Nat)) : Except Response Nat :=
  match hv with
  | some bytes =>
    match headerToStr bytes with
    | none => .error (badRequest "X-Cmux-Port-Internal: invalid header")
    | some s =>
      match rustParseU16 s with
      | none => .error (badRequest "X-Cmux-Port-Internal: must be a number 1-65535")
      | some port =>
        if port = 0 then .error (badRequest "X-Cmux-Port-Internal: must be 1-65535")
        else .ok port
  | none => .error (badRequest "missing required header: X-Cmux-Port-Internal")

/-- Outcome of the request-routing prelude shared by `handle_http_or_ws`
and `handle_connect`: either the request is rejected with an immediate
response, or it is forwarded towards `(host, port)`. -/
inductive HandleOutcome where
  | forwarded (host : String) (port : Nat)
  | rejected (r : Response)
deriving DecidableEq, Repr

/-- The header-validation prelude of `handle_http_or_ws`
(`crates/cmux-proxy/src/lib.rs`): the port header is checked first, then
the workspace header; only if both succeed is the request forwarded. -/
def handle_http_or_ws_gate (portHdr wsHdr : Option (List Nat)) (defaultHost : String) :
    HandleOutcome :=
  match get_port_from_header portHdr with
  | .error r => .rejected r
  | .ok port =>
    match upstream_host_from_headers wsHdr defaultHost with
    | .error r => .rejected r
    | .ok host => .forwarded host port

/-- The identical header-validation prelude of `handle_connect`. -/
def handle_connect_gate (portHdr wsHdr : Option (List Nat)) (defaultHost : String) :
    HandleOutcome :=
  match get_port_from_header portHdr with
  | .error r => .rejected r
  | .ok port =>
    match upstream_host_from_headers wsHdr defaultHost with
    | .error r => .rejected r
    | .ok host => .forwarded host port

/-- The claim C10 failure condition: the port header is missing, or its
value is not visible ASCII, or it does not parse as a `u16`, or it is 0. -/
def badPortHeader (hv : Option (List Nat)) : Prop :=
  hv = none ∨ ∃ bytes, hv = some bytes ∧
    (headerToStr bytes = none ∨ ∃ s, headerToStr bytes = some s ∧
      (rustParseU16 s = none ∨ rustParseU16 s = some 0))

instance (hv : Option (List Nat)) : Decidable (badPortHeader hv) := by
  unfold badPortHeader
  cases hv with
  | none => exact .isTrue (Or.inl rfl)
  | some bytes =>
    refine decidable_of_iff ((headerToStr bytes).isNone ∨
      ∃ s, headerToStr bytes = some s ∧ (rustParseU16 s = none ∨ rustParseU16 s = some 0)) ?_
    constructor
    · rintro (h | h)
      · exact Or.inr ⟨bytes, rfl, Or.inl (Option.isNone_iff_eq_none.mp h)⟩
      · exact Or.inr ⟨bytes, rfl, Or.inr h⟩
    · rintro (h | ⟨b, hb, h | h⟩)
      · exact absurd h (by simp)
      · exact Or.inl (by cases hb; simp [h])
      · exact Or.inr (by cases hb; exact h)

end Cmux

namespace Cmux

/-- C10.  Every HTTP or CONNECT request must carry `X-Cmux-Port-Internal`
parsing as a `u16` in `1..=65535`: if the header is missing, unparseable
or zero, both `handle_http_or_ws` and `handle_connect` reject the request
with a status-400 response carrying a fixed message and never reach the
forwarding stage; otherwise `get_port_from_header` yields the parsed
port, which is nonzero and at most 65535. -/
theorem get_port_gate_rejects_bad_header
    (portHdr wsHdr : Option (List Nat)) (defaultHost : String) :
    (badPortHeader portHdr →
      ∃ r : Response, get_port_from_header portHdr = .error r ∧ r.status = 400 ∧
        handle_http_or_ws_gate portHdr wsHdr defaultHost = .rejected r ∧
        handle_connect_gate portHdr wsHdr defaultHost = .rejected r) ∧
    (¬ badPortHeader portHdr →
      ∃ p, get_port_from_header portHdr = .ok p ∧ 1 ≤ p ∧ p ≤ 65535) := by
  constructor
  · intro h
    rcases h with h | ⟨bytes, hb, h | ⟨s, hs, h | h⟩⟩
    · subst h
      exact ⟨_, rfl, rfl, rfl, rfl⟩
    · subst hb
      refine ⟨badRequest "X-Cmux-Port-Internal: invalid header", ?_, rfl, ?_, ?_⟩ <;>
        simp [get_port_from_header, handle_http_or_ws_gate, handle_connect_gate, h]
    · subst hb
      refine ⟨badRequest "X-Cmux-Port-Internal: must be a number 1-65535", ?_, rfl, ?_, ?_⟩ <;>
        simp [get_port_from_header, handle_http_or_ws_gate, handle_connect_gate, hs, h]
    · subst hb
      refine ⟨badRequest "X-Cmux-Port-Internal: must be 1-65535", ?_, rfl, ?_, ?_⟩ <;>
        simp [get_port_from_header, handle_http_or_ws_gate, handle_connect_gate, hs, h]
  · intro h
    cases portHdr with
    | none => exact absurd (Or.inl rfl) h
    | some bytes =>
      cases hts : headerToStr bytes with
      | none => exact absurd (Or.inr ⟨bytes, rfl, Or.inl hts⟩) h
      | some s =>
        cases hp : rustParseU16 s with
        | none => exact absurd (Or.inr ⟨bytes, rfl, Or.inr ⟨s, hts, Or.inl hp⟩⟩) h
        | some p =>
          have hp0 : p ≠ 0 := by
            intro h0
            exact h (Or.inr ⟨bytes, rfl, Or.inr ⟨s, hts, Or.inr (h0 ▸ hp)⟩⟩)
          refine ⟨p, ?_, Nat.one_le_iff_ne_zero.mpr hp0, ?_⟩
          · simp [get_port_from_header, hts, hp, hp0]
          · have hlt : p < 2 ^ 16 := by
              unfold rustParseU16 rustParseUInt at hp
              dsimp at hp
              split at hp
              · split at hp
                · exact (Option.some.inj hp) ▸ (by assumption)
                · exact absurd hp (by simp)
              · exact absurd hp (by simp)
            omega

/-- Witness for C10 at a concrete input: the header is absent, the
request is rejected with status 400. -/
theorem get_port_gate_rejects_bad_header_witness :
    ∃ r : Response, get_port_from_header none = .error r ∧ r.status = 400 ∧
      handle_http_or_ws_gate none none "h" = .rejected r ∧
      handle_connect_gate none none "h" = .rejected r :=
  (get_port_gate_rejects_bad_header none none "h").1 (Or.inl rfl)

/-- `DecidableEq` for `Except`, used to evaluate embedded results on
concrete inputs. -/
instance {ε α : Type} [DecidableEq ε] [DecidableEq α] : DecidableEq (Except ε α)
  | .error a, .error b =>
    match decEq a b with
    | .isTrue h => .isTrue (by rw [h])
    | .isFalse h => .isFalse (by intro hc; cases hc; exact h rfl)
  | .error _, .ok _ => .isFalse (by intro h; cases h)
  | .ok _, .error _ => .isFalse (by intro h; cases h)
  | .ok a, .ok b =>
    match decEq a b with
    | .isTrue h => .isTrue (by rw [h])
    | .isFalse h => .isFalse (by intro hc; cases hc; exact h rfl)

/-- Counterexample to C9 as stated: for the workspace label `abc`, which
has no trailing numeric suffix, `upstream_host_from_headers` returns a
400 error, not the configured default backend host. -/
theorem workspace_label_without_digits_is_error_not_default :
    upstream_host_from_headers (some (strToBytes "abc")) "h" =
      .error (badRequest
        "X-Cmux-Workspace-Internal: expected name ending in digits (e.g., workspace-1)") ∧
    upstream_host_from_headers (some (strToBytes "abc")) "h" ≠ .ok "h" := by
  constructor
  · decide
  · decide

/-- C9 (amended).  A workspace label ending in decimal digits parsing as
a `u32` value `N` selects upstream host `127.18.((N>>8) & 0xFF).(N & 0xFF)`;
an absent workspace header selects the configured default host; a present
label whose trailing digit run fails to parse as a `u32` (no digits at
all, or overflow) yields a 400 error rather than the default host. -/
theorem upstream_host_selection
    (bytes : List Nat) (s : List Char) (defaultHost : String) (n : Nat)
    (hs : headerToStr bytes = some s) :
    (rustParseU32 (trailingDigits s) = some n →
      upstream_host_from_headers (some bytes) defaultHost =
        .ok (ipToString (127, 18, (n >>> 8) % 256, n % 256))) ∧
    (rustParseU32 (trailingDigits s) = none →
      upstream_host_from_headers (some bytes) defaultHost =
        .error (badRequest
          "X-Cmux-Workspace-Internal: expected name ending in digits (e.g., workspace-1)")) ∧
    upstream_host_from_headers none defaultHost = .ok defaultHost := by
  refine ⟨fun hp => ?_, fun hp => ?_, rfl⟩ <;>
    simp [upstream_host_from_headers, hs, hp, workspace_ip_from_index]

/-- Witness for C9 (amended) at the concrete label `ws257`: the selected
host is `127.18.1.1`. -/
theorem upstream_host_selection_witness :
    upstream_host_from_headers (some (strToBytes "ws257")) "h" = .ok "127.18.1.1" := by
  have h := (upstream_host_selection (strToBytes "ws257")
    (strToBytes "ws257" |>.map Char.ofNat) "h" 257 (by decide)).1 (by decide)
  have h2 : ipToString (127, 18, (257 >>> 8) % 256, 257 % 256) = "127.18.1.1" := by decide
  rw [h2] at h
  exact h

/-! ## Rev resolver (`oid_from_rev_parse`, core/src/diff/refs.rs) -/

/-- Hex digit test for `ObjectId::from_hex`. -/
def isHexChar (c : Char) : Bool :=
  c.isDigit || ('a' ≤ c && c ≤ 'f') || ('A' ≤ c && c ≤ 'F')

/-- Hex digit value. -/
def hexVal (c : Char) : Nat :=
  if c.isDigit then c.toNat - 48
  else if 'a' ≤ c && c ≤ 'f' then c.toNat - 87
  else c.toNat - 55

/-- `gix::hash::ObjectId::from_hex`: succeeds exactly on a 40-character
hex string (SHA-1), yielding the object id as a number. -/
def parseHexOid (s : String) : Option Nat :=
  if s.data.length = 40 ∧ s.data.all isHexChar then
    some (s.data.foldl (fun a c => a * 16 + hexVal c) 0)
  else none

/-- A repository as the resolver sees it: its (direct) references and its
revision parser.  `refs` maps full reference names to object ids;
`revParse` abstracts `gix::Repository::rev_parse_single` (it handles
`HEAD^`, abbreviated hashes, etc., which the embedding leaves opaque). -/
structure RefRepo where
  refs : List (String × Nat)
  revParse : String → Option Nat

/-- Exact lookup of a full reference name. -/
def refLookup (r : RefRepo) (full : String) : Option Nat :=
  (r.refs.find? (fun e => e.1 == full)).map (·.2)

/-- `gix::Repository::find_reference` on a (possibly partial) name:
git's refname disambiguation tries the name itself, then `refs/<name>`,
`refs/tags/<name>`, `refs/heads/<name>`, `refs/remotes/<name>`, and
`refs/remotes/<name>/HEAD`, in that order.  Symbolic references are not
modelled (the Rust code skips a candidate whose target has no direct id). -/
def find_reference (r : RefRepo) (name : String) : Option Nat :=
  match refLookup r name with
  | some id => some id
  | none =>
    match refLookup r ("refs/" ++ name) with
    | some id => some id
    | none =>
      match refLookup r ("refs/tags/" ++ name) with
      | some id => some id
      | none =>
        match refLookup r ("refs/heads/" ++ name) with
        | some id => some id
        | none =>
          match refLookup r ("refs/remotes/" ++ name) with
          | some id => some id
          | none => refLookup r ("refs/remotes/" ++ name ++ "/HEAD")

/-- `oid_from_rev_parse` from `core/src/diff/refs.rs`: first try the rev
as a full hex object id; then `find_reference` on the candidates
`rev`, `refs/remotes/origin/<rev>`, `refs/heads/<rev>`, `refs/tags/<rev>`
in that order; finally the revision parser (`rev_parse_single`). -/
def oid_from_rev_parse (repo : RefRepo) (rev : String) : Option Nat :=
  match parseHexOid rev with
  | some oid => some oid
  | none =>
    match find_reference repo rev with
    | some id => some id
    | none =>
      match find_reference repo ("refs/remotes/origin/" ++ rev) with
      | some id => some id
      | none =>
        match find_reference repo ("refs/heads/" ++ rev) with
        | some id => some id
        | none =>
          match find_reference repo ("refs/tags/" ++ rev) with
          | some id => some id
          | none => repo.revParse rev

/-- The resolver in the order the SPEC states it (written from the spec's
words for comparison with `oid_from_rev_parse`, refinement-style):
1. full hex object id; 2. direct lookup for `refs/`-prefixed names or
`HEAD`; 3. `origin/`-prefixed names mapped to `refs/remotes/origin/<rest>`;
4. `refs/remotes/origin/<rev>`; 5. the revision parser; 6. `refs/heads/<rev>`
then `refs/tags/<rev>`. -/
def specOrderResolve (repo : RefRepo) (rev : String) : Option Nat :=
  match parseHexOid rev with
  | some oid => some oid
  | none =>
    match (if rev.startsWith "refs/" || rev == "HEAD" then refLookup repo rev else none) with
    | some id => some id
    | none =>
      match (if rev.startsWith "origin/" then
          refLookup repo ("refs/remotes/" ++ rev) else none) with
      | some id => some id
      | none =>
        match refLookup repo ("refs/remotes/origin/" ++ rev) with
        | some id => some id
        | none =>
          match repo.revParse rev with
          | some id => some id
          | none =>
            match refLookup repo ("refs/heads/" ++ rev) with
            | some id => some id
            | none => refLookup repo ("refs/tags/" ++ rev)

/-- A repository with a tag `z` (object 1) and a remote-tracking branch
`origin/z` (object 2); any real revision parser resolves `z` to the tag,
which git's precedence ranks above remotes. -/
def exTagRemoteRepo : RefRepo where
  refs := [("refs/tags/z", 1), ("refs/remotes/origin/z", 2)]
  revParse := fun s => if s = "z" then some 1 else none

/-- Counterexample to C8 as stated: on `exTagRemoteRepo` the code
resolves `z` to the tag (object 1) because `find_reference` on the first
candidate already applies git's full refname disambiguation, while the
spec's stated strategy order (step 4: `refs/remotes/origin/<rev>` before
tags and the revision parser) yields the remote-tracking branch
(object 2). -/
theorem oid_from_rev_parse_order_counterexample :
    oid_from_rev_parse exTagRemoteRepo "z" = some 1 ∧
    specOrderResolve exTagRemoteRepo "z" = some 2 ∧
    oid_from_rev_parse exTagRemoteRepo "z" ≠ specOrderResolve exTagRemoteRepo "z" := by
  refine ⟨by decide, by decide, by decide⟩

/-- C8 (amended).  The actual strategy order of `oid_from_rev_parse`:
a full hex object id wins outright; otherwise `find_reference` (with
git's partial-name disambiguation) is tried on `rev` itself, then on
`refs/remotes/origin/<rev>`, `refs/heads/<rev>` and `refs/tags/<rev>`,
and the revision parser is consulted only when every reference candidate
fails — so a rev that any reference candidate resolves is never answered
by the revision parser. -/
theorem oid_from_rev_parse_order (repo : RefRepo) (rev : String) :
    (∀ oid, parseHexOid rev = some oid → oid_from_rev_parse repo rev = some oid) ∧
    (∀ oid, parseHexOid rev = none → find_reference repo rev = some oid →
      oid_from_rev_parse repo rev = some oid) ∧
    (parseHexOid rev = none → find_reference repo rev = none →
      find_reference repo ("refs/remotes/origin/" ++ rev) = none →
      find_reference repo ("refs/heads/" ++ rev) = none →
      find_reference repo ("refs/tags/" ++ rev) = none →
      oid_from_rev_parse repo rev = repo.revParse rev) := by
  refine ⟨fun oid h => ?_, fun oid h1 h2 => ?_, fun h1 h2 h3 h4 h5 => ?_⟩ <;>
    simp [oid_from_rev_parse, *]

/-- Witness for C8 (amended) at a concrete repository and rev. -/
theorem oid_from_rev_parse_order_witness :
    oid_from_rev_parse exTagRemoteRepo "z" = some 1 :=
  (oid_from_rev_parse_order exTagRemoteRepo "z").2.1 1 (by decide) (by decide)

/-! ## Diff engine core (core/src/diff/refs.rs) -/

/-- Continuation-byte test for the UTF-8 validator. -/
def utf8Cont (b : Nat) : Bool := 0x80 ≤ b && b ≤ 0xBF

/-- `std::str::from_utf8(data).is_ok()`: standard UTF-8 validity of a
byte sequence (shortest-form encodings, no surrogates, max U+10FFFF). -/
def validUtf8 : List Nat → Bool
  | [] => true
  | b :: rest =>
    if b ≤ 0x7F then validUtf8 rest
    else if 0xC2 ≤ b && b ≤ 0xDF then
      match rest with
      | c :: r => utf8Cont c && validUtf8 r
      | [] => false
    else if b == 0xE0 then
      match rest with
      | c :: d :: r => (0xA0 ≤ c && c ≤ 0xBF) && utf8Cont d && validUtf8 r
      | _ => false
    else if (0xE1 ≤ b && b ≤ 0xEC) || b == 0xEE || b == 0xEF then
      match rest with
      | c :: d :: r => utf8Cont c && utf8Cont d && validUtf8 r
      | _ => false
    else if b == 0xED then
      match rest with
      | c :: d :: r => (0x80 ≤ c && c ≤ 0x9F) && utf8Cont d && validUtf8 r
      | _ => false
    else if b == 0xF0 then
      match rest with
      | c :: d :: e :: r => (0x90 ≤ c && c ≤ 0xBF) && utf8Cont d && utf8Cont e && validUtf8 r
      | _ => false
    else if 0xF1 ≤ b && b ≤ 0xF3 then
      match rest with
      | c :: d :: e :: r => utf8Cont c && utf8Cont d && utf8Cont e && validUtf8 r
      | _ => false
    else if b == 0xF4 then
      match rest with
      | c :: d :: e :: r => (0x80 ≤ c && c ≤ 0x8F) && utf8Cont d && utf8Cont e && validUtf8 r
      | _ => false
    else false

/-- `is_binary` from `core/src/diff/refs.rs`: any NUL byte, or not valid
UTF-8. -/
def is_binary (data : List Nat) : Bool :=
  data.any (· == 0) || !(validUtf8 data)

/-- Split a byte string into lines, each line keeping its trailing
newline byte (the tokenization `similar::TextDiff::from_lines` diffs
over; Rust's `str::lines().count()` equals the length of this list). -/
def linesGo (acc : List Nat) : List Nat → List (List Nat)
  | [] => if acc.isEmpty then [] else [acc.reverse]
  | b :: rest =>
    if b == 10 then (acc.reverse ++ [10]) :: linesGo [] rest
    else linesGo (b :: acc) rest

/-- See `linesGo`. -/
def linesKeepEnds (bs : List Nat) : List (List Nat) := linesGo [] bs

/-- One row step of the longest-common-subsequence dynamic program:
given the row of LCS lengths of `xs` against every suffix of the second
argument, produce the row for `x :: xs`. -/
def lcsRowStep {α : Type} [DecidableEq α] (x : α) : List α → List Nat → List Nat
  | [], _ => [0]
  | y :: ys, prev =>
    match prev with
    | _ :: prevTail =>
      let restRow := lcsRowStep x ys prevTail
      let diag := prevTail.headD 0
      let v := if x = y then diag + 1 else max (restRow.headD 0) (prev.headD 0)
      v :: restRow
    | [] => [0]

/-- LCS rows for `xs` against all suffixes of `ys` (dynamic program). -/
def lcsRows {α : Type} [DecidableEq α] (ys : List α) : List α → List Nat
  | [] => List.replicate (ys.length + 1) 0
  | x :: xs => lcsRowStep x ys (lcsRows ys xs)

/-- Length of a longest common subsequence. -/
def lcsLen {α : Type} [DecidableEq α] (xs ys : List α) : Nat := (lcsRows ys xs).headD 0

/-- Number of inserted lines in a minimal line diff from `olds` to
`news`.  `similar::TextDiff` (default Myers) produces a minimal edit
script, whose `Insert` tag count is `|news| - lcs`. -/
def diffAdds {α : Type} [DecidableEq α] (olds news : List α) : Nat :=
  news.length - lcsLen olds news

/-- Number of deleted lines in a minimal line diff (`Delete` tag count,
`|olds| - lcs`). -/
def diffDels {α : Type} [DecidableEq α] (olds news : List α) : Nat :=
  olds.length - lcsLen olds news

/-- The `DiffEntry` record (core/src/types.rs, shape per the spec's data
model).  Text contents are carried as their (losslessly decoded) bytes;
`Default::default()` corresponds to the field defaults. -/
structure DiffEntry where
  filePath : String
  oldPath : Option String := none
  status : String
  additions : Nat := 0
  deletions : Nat := 0
  isBinary : Bool := false
  oldSize : Option Nat := none
  newSize : Option Nat := none
  oldContent : Option (List Nat) := none
  newContent : Option (List Nat) := none
  contentOmitted : Option Bool := none
deriving DecidableEq, Repr

/-- The state `diff_refs` works from once both trees are enumerated:
`base`/`head` are the path → blob-id maps produced by
`collect_tree_blobs` (modelled directly as the flattened mapping), and
`blob` resolves a blob id to its bytes (`none` for submodule gitlinks
and other non-blobs). -/
structure DiffModel where
  paths : List String
  base : String → Option Nat
  head : String → Option Nat
  blob : Nat → Option (List Nat)

/-- Paths present in base but not in head (`base_only`). -/
def baseOnly (m : DiffModel) : List (String × Nat) :=
  m.paths.filterMap fun p =>
    match m.base p, m.head p with
    | some o, none => some (p, o)
    | _, _ => none

/-- Paths present in head but not in base (`head_only`). -/
def headOnly (m : DiffModel) : List (String × Nat) :=
  m.paths.filterMap fun p =>
    match m.base p, m.head p with
    | none, some o => some (p, o)
    | _, _ => none

/-- Paths present in both trees with differing blob ids (the modified
loop skips `old_id == new_id`). -/
def bothChanged (m : DiffModel) : List (String × Nat × Nat) :=
  m.paths.filterMap fun p =>
    match m.base p, m.head p with
    | some o1, some o2 => if o1 = o2 then none else some (p, o1, o2)
    | _, _ => none

/-- The paths of an association list that carry blob id `o`. -/
def pathsWithOid (l : List (String × Nat)) (o : Nat) : List String :=
  l.filterMap fun e => if e.2 = o then some e.1 else none

/-- Identity-based rename pairing: for each blob id appearing on both
sides, pair off `min` many deleted and added paths carrying it
(the Rust code pops the per-oid `Vec`s from the back, hence the
reversal; the HashMap iteration order is abstracted to first-appearance
order, which no proved property depends on). -/
def renamedPairs (m : DiffModel) : List (String × String × Nat) :=
  (((baseOnly m).map Prod.snd).dedup).flatMap fun o =>
    let olds := pathsWithOid (baseOnly m) o
    let news := pathsWithOid (headOnly m) o
    let n := min olds.length news.length
    ((olds.reverse.take n).zip (news.reverse.take n)).map fun pr => (pr.1, pr.2, o)

/-- Old paths consumed by rename pairing. -/
def pairedOldPaths (m : DiffModel) : List String := (renamedPairs m).map (·.1)

/-- New paths consumed by rename pairing. -/
def pairedNewPaths (m : DiffModel) : List String := (renamedPairs m).map (fun t => t.2.1)

/-- `head_only` minus the rename-consumed paths (the additions loop). -/
def addedList (m : DiffModel) : List (String × Nat) :=
  (headOnly m).filter fun e => ¬ e.1 ∈ pairedNewPaths m

/-- `base_only` minus the rename-consumed paths (the deletions loop). -/
def deletedList (m : DiffModel) : List (String × Nat) :=
  (baseOnly m).filter fun e => ¬ e.1 ∈ pairedOldPaths m

/-- Emission of one renamed entry (content identical by blob id). -/
def mkRenamed (m : DiffModel) (inc : Bool) (maxB : Nat)
    (pr : String × String × Nat) : DiffEntry :=
  match m.blob pr.2.2 with
  | none =>
    { filePath := pr.2.1, oldPath := some pr.1, status := "renamed",
      isBinary := true, contentOmitted := some false }
  | some buf =>
    let bin := is_binary buf
    if inc && !bin then
      if buf.length ≤ maxB then
        { filePath := pr.2.1, oldPath := some pr.1, status := "renamed", isBinary := bin,
          newSize := some buf.length, oldSize := some buf.length,
          oldContent := some buf, newContent := some buf, contentOmitted := some false }
      else
        { filePath := pr.2.1, oldPath := some pr.1, status := "renamed", isBinary := bin,
          newSize := some buf.length, oldSize := some buf.length,
          contentOmitted := some true }
    else
      { filePath := pr.2.1, oldPath := some pr.1, status := "renamed", isBinary := bin,
        contentOmitted := some false }

/-- Emission of one modified entry. -/
def mkModified (m : DiffModel) (inc : Bool) (maxB : Nat)
    (t : String × Nat × Nat) : DiffEntry :=
  match m.blob t.2.1, m.blob t.2.2 with
  | some a, some b =>
    let bin := is_binary a || is_binary b
    if inc && !bin then
      if a.length + b.length ≤ maxB then
        { filePath := t.1, status := "modified",
          additions := diffAdds (linesKeepEnds a) (linesKeepEnds b),
          deletions := diffDels (linesKeepEnds a) (linesKeepEnds b),
          isBinary := bin, oldSize := some a.length, newSize := some b.length,
          oldContent := some a, newContent := some b, contentOmitted := some false }
      else
        { filePath := t.1, status := "modified", isBinary := bin,
          oldSize := some a.length, newSize := some b.length, contentOmitted := some true }
    else
      { filePath := t.1, status := "modified", isBinary := bin, contentOmitted := some false }
  | _, _ =>
    { filePath := t.1, status := "modified", isBinary := true, contentOmitted := some false }

/-- Emission of one added entry. -/
def mkAdded (m : DiffModel) (inc : Bool) (maxB : Nat) (e : String × Nat) : DiffEntry :=
  match m.blob e.2 with
  | none =>
    { filePath := e.1, status := "added", isBinary := true, contentOmitted := some false }
  | some buf =>
    let bin := is_binary buf
    if inc && !bin then
      if buf.length ≤ maxB then
        { filePath := e.1, status := "added", isBinary := bin,
          newSize := some buf.length, oldSize := some 0,
          oldContent := some [], newContent := some buf,
          additions := (linesKeepEnds buf).length, contentOmitted := some false }
      else
        { filePath := e.1, status := "added", isBinary := bin,
          newSize := some buf.length, oldSize := some 0, contentOmitted := some true }
    else
      { filePath := e.1, status := "added", isBinary := bin, contentOmitted := some false }

/-- Emission of one deleted entry (the Rust code never sets `newSize`
here). -/
def mkDeleted (m : DiffModel) (inc : Bool) (maxB : Nat) (e : String × Nat) : DiffEntry :=
  match m.blob e.2 with
  | none =>
    { filePath := e.1, status := "deleted", isBinary := true, contentOmitted := some false }
  | some buf =>
    let bin := is_binary buf
    if inc && !bin then
      if buf.length ≤ maxB then
        { filePath := e.1, status := "deleted", isBinary := bin,
          oldSize := some buf.length,
          oldContent := some buf, newContent := some [],
          deletions := (linesKeepEnds buf).length, contentOmitted := some false }
      else
        { filePath := e.1, status := "deleted", isBinary := bin,
          oldSize := some buf.length, contentOmitted := some true }
    else
      { filePath := e.1, status := "deleted", isBinary := bin, contentOmitted := some false }

/-- The entry list `diff_refs` builds from the tree maps: renames, then
modifications, then unmatched additions, then unmatched deletions. -/
def diffEntriesCore (m : DiffModel) (inc : Bool) (maxB : Nat) : List DiffEntry :=
  ((renamedPairs m).map (mkRenamed m inc maxB)) ++
  ((bothChanged m).map (mkModified m inc maxB)) ++
  ((addedList m).map (mkAdded m inc maxB)) ++
  ((deletedList m).map (mkDeleted m inc maxB))

/-- Sum of the `additions` column. -/
def sumAdds (l : List DiffEntry) : Nat := (l.map (·.additions)).sum

/-- Sum of the `deletions` column. -/
def sumDels (l : List DiffEntry) : Nat := (l.map (·.deletions)).sum

/-- Modelled from the spec: the total of the `+` column of
`git diff --numstat base..head` (with git's default rename detection,
which always finds exact renames).  The git CLI is external to `src/`;
per the spec a file's `+` column is the insert count of a minimal line
diff, `-` (binary, detected here with the engine's NUL/non-UTF-8
heuristic — per the spec's design notes the union of the heuristics
wins) counts as 0, and an exact rename contributes `0 0`. -/
def numstatAdds (m : DiffModel) : Nat :=
  ((bothChanged m).map (fun t =>
    match m.blob t.2.1, m.blob t.2.2 with
    | some a, some b =>
      if is_binary a || is_binary b then 0
      else diffAdds (linesKeepEnds a) (linesKeepEnds b)
    | _, _ => 0)).sum
  + ((addedList m).map (fun e =>
    match m.blob e.2 with
    | some buf => if is_binary buf then 0 else (linesKeepEnds buf).length
    | none => 0)).sum

/-- Modelled from the spec: the total of the `-` column of
`git diff --numstat base..head`; see `numstatAdds`. -/
def numstatDels (m : DiffModel) : Nat :=
  ((bothChanged m).map (fun t =>
    match m.blob t.2.1, m.blob t.2.2 with
    | some a, some b =>
      if is_binary a || is_binary b then 0
      else diffDels (linesKeepEnds a) (linesKeepEnds b)
    | _, _ => 0)).sum
  + ((deletedList m).map (fun e =>
    match m.blob e.2 with
    | some buf => if is_binary buf then 0 else (linesKeepEnds buf).length
    | none => 0)).sum

/-- Executable fitness check for a modified path: non-binary implies the
two text sizes fit within `maxB`. -/
def modFits (m : DiffModel) (maxB : Nat) (t : String × Nat × Nat) : Bool :=
  match m.blob t.2.1, m.blob t.2.2 with
  | some a, some b => is_binary a || is_binary b || decide (a.length + b.length ≤ maxB)
  | _, _ => true

/-- Executable fitness check for a one-sided (added/deleted) path. -/
def sideFits (m : DiffModel) (maxB : Nat) (e : String × Nat) : Bool :=
  match m.blob e.2 with
  | some buf => is_binary buf || decide (buf.length ≤ maxB)
  | none => true

/-! ### Shape lemmas for the emitted entries -/

theorem mkRenamed_fields (m : DiffModel) (inc : Bool) (maxB : Nat)
    (pr : String × String × Nat) :
    (mkRenamed m inc maxB pr).status = "renamed" ∧
    (mkRenamed m inc maxB pr).filePath = pr.2.1 ∧
    (mkRenamed m inc maxB pr).oldPath = some pr.1 ∧
    (mkRenamed m inc maxB pr).additions = 0 ∧
    (mkRenamed m inc maxB pr).deletions = 0 ∧
    (mkRenamed m inc maxB pr).oldContent = (mkRenamed m inc maxB pr).newContent := by
  unfold mkRenamed
  split
  · exact ⟨rfl, rfl, rfl, rfl, rfl, rfl⟩
  · dsimp only
    split
    · split
      · exact ⟨rfl, rfl, rfl, rfl, rfl, rfl⟩
      · exact ⟨rfl, rfl, rfl, rfl, rfl, rfl⟩
    · exact ⟨rfl, rfl, rfl, rfl, rfl, rfl⟩

theorem mkModified_fields (m : DiffModel) (inc : Bool) (maxB : Nat)
    (t : String × Nat × Nat) :
    (mkModified m inc maxB t).status = "modified" ∧
    (mkModified m inc maxB t).filePath = t.1 ∧
    (mkModified m inc maxB t).oldPath = none := by
  unfold mkModified
  split
  · dsimp only
    split
    · split
      · exact ⟨rfl, rfl, rfl⟩
      · exact ⟨rfl, rfl, rfl⟩
    · exact ⟨rfl, rfl, rfl⟩
  · exact ⟨rfl, rfl, rfl⟩

theorem mkAdded_fields (m : DiffModel) (inc : Bool) (maxB : Nat) (e : String × Nat) :
    (mkAdded m inc maxB e).status = "added" ∧
    (mkAdded m inc maxB e).filePath = e.1 ∧
    (mkAdded m inc maxB e).oldPath = none ∧
    (mkAdded m inc maxB e).deletions = 0 := by
  unfold mkAdded
  split
  · exact ⟨rfl, rfl, rfl, rfl⟩
  · dsimp only
    split
    · split
      · exact ⟨rfl, rfl, rfl, rfl⟩
      · exact ⟨rfl, rfl, rfl, rfl⟩
    · exact ⟨rfl, rfl, rfl, rfl⟩

theorem mkDeleted_fields (m : DiffModel) (inc : Bool) (maxB : Nat) (e : String × Nat) :
    (mkDeleted m inc maxB e).status = "deleted" ∧
    (mkDeleted m inc maxB e).filePath = e.1 ∧
    (mkDeleted m inc maxB e).oldPath = none ∧
    (mkDeleted m inc maxB e).additions = 0 := by
  unfold mkDeleted
  split
  · exact ⟨rfl, rfl, rfl, rfl⟩
  · dsimp only
    split
    · split
      · exact ⟨rfl, rfl, rfl, rfl⟩
      · exact ⟨rfl, rfl, rfl, rfl⟩
    · exact ⟨rfl, rfl, rfl, rfl⟩

theorem mkRenamed_binary_inv (m : DiffModel) (inc : Bool) (maxB : Nat)
    (pr : String × String × Nat) :
    (mkRenamed m inc maxB pr).isBinary = true →
    (mkRenamed m inc maxB pr).oldContent = none ∧
    (mkRenamed m inc maxB pr).newContent = none := by
  unfold mkRenamed
  split
  · intro _; exact ⟨rfl, rfl⟩
  · dsimp only
    split
    · split <;> (intro hb; simp_all)
    · intro _; exact ⟨rfl, rfl⟩

theorem mkModified_binary_inv (m : DiffModel) (inc : Bool) (maxB : Nat)
    (t : String × Nat × Nat) :
    (mkModified m inc maxB t).isBinary = true →
    (mkModified m inc maxB t).additions = 0 ∧
    (mkModified m inc maxB t).deletions = 0 ∧
    (mkModified m inc maxB t).oldContent = none ∧
    (mkModified m inc maxB t).newContent = none := by
  unfold mkModified
  split
  · dsimp only
    split
    · split <;> (intro hb; simp_all)
    · intro _; exact ⟨rfl, rfl, rfl, rfl⟩
  · intro _; exact ⟨rfl, rfl, rfl, rfl⟩

theorem mkAdded_binary_inv (m : DiffModel) (inc : Bool) (maxB : Nat) (e : String × Nat) :
    (mkAdded m inc maxB e).isBinary = true →
    (mkAdded m inc maxB e).additions = 0 ∧
    (mkAdded m inc maxB e).oldContent = none ∧
    (mkAdded m inc maxB e).newContent = none := by
  unfold mkAdded
  split
  · intro _; exact ⟨rfl, rfl, rfl⟩
  · dsimp only
    split
    · split <;> (intro hb; simp_all)
    · intro _; exact ⟨rfl, rfl, rfl⟩

theorem mkDeleted_binary_inv (m : DiffModel) (inc : Bool) (maxB : Nat) (e : String × Nat) :
    (mkDeleted m inc maxB e).isBinary = true →
    (mkDeleted m inc maxB e).deletions = 0 ∧
    (mkDeleted m inc maxB e).oldContent = none ∧
    (mkDeleted m inc maxB e).newContent = none := by
  unfold mkDeleted
  split
  · intro _; exact ⟨rfl, rfl, rfl⟩
  · dsimp only
    split
    · split <;> (intro hb; simp_all)
    · intro _; exact ⟨rfl, rfl, rfl⟩

/-- C4.  Every entry `diff_refs` emits with `is_binary = true` has zero
additions and deletions and no contents, for every status and for both
values of `include_contents`. -/
theorem binary_entries_have_no_counts_or_contents
    (m : DiffModel) (inc : Bool) (maxB : Nat) (e : DiffEntry)
    (he : e ∈ diffEntriesCore m inc maxB) (hb : e.isBinary = true) :
    e.additions = 0 ∧ e.deletions = 0 ∧ e.oldContent = none ∧ e.newContent = none := by
  unfold diffEntriesCore at he
  rcases List.mem_append.mp he with he | he
  · rcases List.mem_append.mp he with he | he
    · rcases List.mem_append.mp he with he | he
      · obtain ⟨pr, _, rfl⟩ := List.mem_map.mp he
        obtain ⟨-, -, -, h4, h5, -⟩ := mkRenamed_fields m inc maxB pr
        obtain ⟨c1, c2⟩ := mkRenamed_binary_inv m inc maxB pr hb
        exact ⟨h4, h5, c1, c2⟩
      · obtain ⟨t, _, rfl⟩ := List.mem_map.mp he
        exact mkModified_binary_inv m inc maxB t hb
    · obtain ⟨x, _, rfl⟩ := List.mem_map.mp he
      obtain ⟨-, -, -, h4⟩ := mkAdded_fields m inc maxB x
      obtain ⟨c0, c1, c2⟩ := mkAdded_binary_inv m inc maxB x hb
      exact ⟨c0, h4, c1, c2⟩
  · obtain ⟨x, _, rfl⟩ := List.mem_map.mp he
    obtain ⟨-, -, -, h4⟩ := mkDeleted_fields m inc maxB x
    obtain ⟨c0, c1, c2⟩ := mkDeleted_binary_inv m inc maxB x hb
    exact ⟨h4, c0, c1, c2⟩

/-- A small concrete repository state used by the witnesses: a modified
text file `f`, a binary added file `g`, and an identity rename
`old.txt` → `new.txt`. -/
def exDiffModel : DiffModel where
  paths := ["f", "g", "old.txt", "new.txt"]
  base := fun p => if p = "f" then some 1 else if p = "old.txt" then some 3 else none
  head := fun p =>
    if p = "f" then some 2 else if p = "new.txt" then some 3
    else if p = "g" then some 4 else none
  blob := fun o =>
    if o = 1 then some (strToBytes "a\nb\n") else if o = 2 then some (strToBytes "a\nc\n")
    else if o = 3 then some (strToBytes "same\n") else if o = 4 then some [0, 1, 2] else none

/-- Witness for C4 at the concrete binary added file `g`. -/
theorem binary_entries_have_no_counts_or_contents_witness :
    (mkAdded exDiffModel true 100 ("g", 4)).additions = 0 ∧
    (mkAdded exDiffModel true 100 ("g", 4)).deletions = 0 ∧
    (mkAdded exDiffModel true 100 ("g", 4)).oldContent = none ∧
    (mkAdded exDiffModel true 100 ("g", 4)).newContent = none :=
  binary_entries_have_no_counts_or_contents exDiffModel true 100
    (mkAdded exDiffModel true 100 ("g", 4)) (by decide) (by decide)

theorem mkRenamed_omitted_inv (m : DiffModel) (maxB : Nat) (pr : String × String × Nat) :
    (mkRenamed m true maxB pr).isBinary = false →
    ∃ sz, (mkRenamed m true maxB pr).oldSize = some sz ∧
      (mkRenamed m true maxB pr).newSize = some sz ∧
      ((mkRenamed m true maxB pr).contentOmitted = some true ↔ maxB < sz) ∧
      (maxB < sz → (mkRenamed m true maxB pr).oldContent = none ∧
        (mkRenamed m true maxB pr).newContent = none) := by
  unfold mkRenamed
  split
  · intro hb; cases hb
  · dsimp only
    split
    · split
      · rename_i hfit
        intro _
        refine ⟨_, rfl, rfl, ?_, ?_⟩
        · simp
          omega
        · intro hlt
          exact absurd hfit (by omega)
      · rename_i hfit
        intro _
        refine ⟨_, rfl, rfl, ?_, fun _ => ⟨rfl, rfl⟩⟩
        simp
        omega
    · rename_i hcond
      intro hb
      exfalso
      simp_all

theorem mkModified_omitted_inv (m : DiffModel) (maxB : Nat) (t : String × Nat × Nat) :
    (mkModified m true maxB t).isBinary = false →
    ∃ a b, (mkModified m true maxB t).oldSize = some a ∧
      (mkModified m true maxB t).newSize = some b ∧
      ((mkModified m true maxB t).contentOmitted = some true ↔ maxB < a + b) ∧
      (maxB < a + b → (mkModified m true maxB t).oldContent = none ∧
        (mkModified m true maxB t).newContent = none) := by
  unfold mkModified
  split
  · dsimp only
    split
    · split
      · rename_i hfit
        intro _
        refine ⟨_, _, rfl, rfl, ?_, ?_⟩
        · simp
          omega
        · intro hlt
          exact absurd hfit (by omega)
      · rename_i hfit
        intro _
        refine ⟨_, _, rfl, rfl, ?_, fun _ => ⟨rfl, rfl⟩⟩
        simp
        omega
    · rename_i hcond
      intro hb
      exfalso
      simp_all
  · intro hb; cases hb

theorem mkAdded_omitted_inv (m : DiffModel) (maxB : Nat) (e : String × Nat) :
    (mkAdded m true maxB e).isBinary = false →
    ∃ sz, (mkAdded m true maxB e).newSize = some sz ∧
      (mkAdded m true maxB e).oldSize = some 0 ∧
      ((mkAdded m true maxB e).contentOmitted = some true ↔ maxB < sz) ∧
      (maxB < sz → (mkAdded m true maxB e).oldContent = none ∧
        (mkAdded m true maxB e).newContent = none) := by
  unfold mkAdded
  split
  · intro hb; cases hb
  · dsimp only
    split
    · split
      · rename_i hfit
        intro _
        refine ⟨_, rfl, rfl, ?_, ?_⟩
        · simp
          omega
        · intro hlt
          exact absurd hfit (by omega)
      · rename_i hfit
        intro _
        refine ⟨_, rfl, rfl, ?_, fun _ => ⟨rfl, rfl⟩⟩
        simp
        omega
    · rename_i hcond
      intro hb
      exfalso
      simp_all

theorem mkDeleted_omitted_inv (m : DiffModel) (maxB : Nat) (e : String × Nat) :
    (mkDeleted m true maxB e).isBinary = false →
    ∃ sz, (mkDeleted m true maxB e).oldSize = some sz ∧
      ((mkDeleted m true maxB e).contentOmitted = some true ↔ maxB < sz) ∧
      (maxB < sz → (mkDeleted m true maxB e).oldContent = none ∧
        (mkDeleted m true maxB e).newContent = none) := by
  unfold mkDeleted
  split
  · intro hb; cases hb
  · dsimp only
    split
    · split
      · rename_i hfit
        intro _
        refine ⟨_, rfl, ?_, ?_⟩
        · simp
          omega
        · intro hlt
          exact absurd hfit (by omega)
      · rename_i hfit
        intro _
        refine ⟨_, rfl, ?_, fun _ => ⟨rfl, rfl⟩⟩
        simp
        omega
    · rename_i hcond
      intro hb
      exfalso
      simp_all

/-- C6.  With `include_contents = true`, every non-binary emitted entry
records the text sizes of its sides and sets `content_omitted` exactly
when their sum exceeds `max_bytes` (old plus new for modified, new for
added, the shared blob size for renamed, old for deleted); when omitted,
the content fields are absent while the sizes remain populated.  The
default `max_bytes` of 950 KiB equals 972 800 bytes. -/
theorem content_omitted_exactly_when_oversize
    (m : DiffModel) (maxB : Nat) (e : DiffEntry)
    (he : e ∈ diffEntriesCore m true maxB) (hnb : e.isBinary = false) :
    (e.status = "renamed" → ∃ sz, e.oldSize = some sz ∧ e.newSize = some sz ∧
      (e.contentOmitted = some true ↔ maxB < sz)) ∧
    (e.status = "modified" → ∃ a b, e.oldSize = some a ∧ e.newSize = some b ∧
      (e.contentOmitted = some true ↔ maxB < a + b)) ∧
    (e.status = "added" → ∃ sz, e.newSize = some sz ∧ e.oldSize = some 0 ∧
      (e.contentOmitted = some true ↔ maxB < sz)) ∧
    (e.status = "deleted" → ∃ sz, e.oldSize = some sz ∧
      (e.contentOmitted = some true ↔ maxB < sz)) ∧
    (e.contentOmitted = some true → e.oldContent = none ∧ e.newContent = none) ∧
    950 * 1024 = 972800 := by
  unfold diffEntriesCore at he
  rcases List.mem_append.mp he with he | he
  · rcases List.mem_append.mp he with he | he
    · rcases List.mem_append.mp he with he | he
      · obtain ⟨pr, _, rfl⟩ := List.mem_map.mp he
        obtain ⟨hst, -⟩ := mkRenamed_fields m true maxB pr
        obtain ⟨sz, h1, h2, h3, h4⟩ := mkRenamed_omitted_inv m maxB pr hnb
        refine ⟨fun _ => ⟨sz, h1, h2, h3⟩, ?_, ?_, ?_, fun ho => h4 (h3.mp ho), rfl⟩ <;>
          (intro hst'; rw [hst] at hst'; exact absurd hst' (by decide))
      · obtain ⟨t, _, rfl⟩ := List.mem_map.mp he
        obtain ⟨hst, -⟩ := mkModified_fields m true maxB t
        obtain ⟨a, b, h1, h2, h3, h4⟩ := mkModified_omitted_inv m maxB t hnb
        refine ⟨?_, fun _ => ⟨a, b, h1, h2, h3⟩, ?_, ?_, fun ho => h4 (h3.mp ho), rfl⟩ <;>
          (intro hst'; rw [hst] at hst'; exact absurd hst' (by decide))
    · obtain ⟨x, _, rfl⟩ := List.mem_map.mp he
      obtain ⟨hst, -⟩ := mkAdded_fields m true maxB x
      obtain ⟨sz, h1, h2, h3, h4⟩ := mkAdded_omitted_inv m maxB x hnb
      refine ⟨?_, ?_, fun _ => ⟨sz, h1, h2, h3⟩, ?_, fun ho => h4 (h3.mp ho), rfl⟩ <;>
        (intro hst'; rw [hst] at hst'; exact absurd hst' (by decide))
  · obtain ⟨x, _, rfl⟩ := List.mem_map.mp he
    obtain ⟨hst, -⟩ := mkDeleted_fields m true maxB x
    obtain ⟨sz, h1, h3, h4⟩ := mkDeleted_omitted_inv m maxB x hnb
    refine ⟨?_, ?_, ?_, fun _ => ⟨sz, h1, h3⟩, fun ho => h4 (h3.mp ho), rfl⟩ <;>
      (intro hst'; rw [hst] at hst'; exact absurd hst' (by decide))

/-- Witness for C6 at the concrete modified text file `f` (sizes 4 + 4,
within a 100-byte bound, so nothing is omitted). -/
theorem content_omitted_exactly_when_oversize_witness :
    ((mkModified exDiffModel true 100 ("f", 1, 2)).status = "renamed" →
      ∃ sz, (mkModified exDiffModel true 100 ("f", 1, 2)).oldSize = some sz ∧
        (mkModified exDiffModel true 100 ("f", 1, 2)).newSize = some sz ∧
        ((mkModified exDiffModel true 100 ("f", 1, 2)).contentOmitted = some true ↔ 100 < sz)) ∧
    ((mkModified exDiffModel true 100 ("f", 1, 2)).status = "modified" →
      ∃ a b, (mkModified exDiffModel true 100 ("f", 1, 2)).oldSize = some a ∧
        (mkModified exDiffModel true 100 ("f", 1, 2)).newSize = some b ∧
        ((mkModified exDiffModel true 100 ("f", 1, 2)).contentOmitted = some true ↔ 100 < a + b)) ∧
    ((mkModified exDiffModel true 100 ("f", 1, 2)).status = "added" →
      ∃ sz, (mkModified exDiffModel true 100 ("f", 1, 2)).newSize = some sz ∧
        (mkModified exDiffModel true 100 ("f", 1, 2)).oldSize = some 0 ∧
        ((mkModified exDiffModel true 100 ("f", 1, 2)).contentOmitted = some true ↔ 100 < sz)) ∧
    ((mkModified exDiffModel true 100 ("f", 1, 2)).status = "deleted" →
      ∃ sz, (mkModified exDiffModel true 100 ("f", 1, 2)).oldSize = some sz ∧
        ((mkModified exDiffModel true 100 ("f", 1, 2)).contentOmitted = some true ↔ 100 < sz)) ∧
    ((mkModified exDiffModel true 100 ("f", 1, 2)).contentOmitted = some true →
      (mkModified exDiffModel true 100 ("f", 1, 2)).oldContent = none ∧
      (mkModified exDiffModel true 100 ("f", 1, 2)).newContent = none) ∧
    950 * 1024 = 972800 :=
  content_omitted_exactly_when_oversize exDiffModel 100
    (mkModified exDiffModel true 100 ("f", 1, 2)) (by decide) (by decide)

/-! ### Totals versus numstat (C1) -/

/-- Counterexample to C1 as stated: with `max_bytes = 1` (an admissible
input of `diff_refs`), the modified text file `f` is emitted with
`additions = deletions = 0` because its contents exceed `max_bytes` and
the text diff is never run, while `git diff --numstat` (modelled from
the spec) reports `+1 -1`; the totals differ. -/
theorem diff_totals_counterexample :
    sumAdds (diffEntriesCore exDiffModel true 1) = 0 ∧
    sumDels (diffEntriesCore exDiffModel true 1) = 0 ∧
    numstatAdds exDiffModel = 1 ∧
    numstatDels exDiffModel = 1 ∧
    ¬ (sumAdds (diffEntriesCore exDiffModel true 1) = numstatAdds exDiffModel ∧
       sumDels (diffEntriesCore exDiffModel true 1) = numstatDels exDiffModel) := by
  refine ⟨by decide, by decide, by decide, by decide, by decide⟩

theorem mkModified_additions_fits (m : DiffModel) (maxB : Nat) (t : String × Nat × Nat)
    (h : modFits m maxB t = true) :
    (mkModified m true maxB t).additions =
      (match m.blob t.2.1, m.blob t.2.2 with
       | some a, some b =>
         if is_binary a || is_binary b then 0
         else diffAdds (linesKeepEnds a) (linesKeepEnds b)
       | _, _ => 0) := by
  unfold mkModified
  unfold modFits at h
  cases hA : m.blob t.2.1 <;> cases hB : m.blob t.2.2 <;> rw [hA, hB] at h <;>
    dsimp only at h ⊢
  rename_i a b
  cases hbin : (is_binary a || is_binary b) with
  | true => simp [hbin]
  | false =>
    have hfit : a.length + b.length ≤ maxB := by
      rw [hbin] at h
      simpa using h
    simp [hbin, hfit]

theorem mkModified_deletions_fits (m : DiffModel) (maxB : Nat) (t : String × Nat × Nat)
    (h : modFits m maxB t = true) :
    (mkModified m true maxB t).deletions =
      (match m.blob t.2.1, m.blob t.2.2 with
       | some a, some b =>
         if is_binary a || is_binary b then 0
         else diffDels (linesKeepEnds a) (linesKeepEnds b)
       | _, _ => 0) := by
  unfold mkModified
  unfold modFits at h
  cases hA : m.blob t.2.1 <;> cases hB : m.blob t.2.2 <;> rw [hA, hB] at h <;>
    dsimp only at h ⊢
  rename_i a b
  cases hbin : (is_binary a || is_binary b) with
  | true => simp [hbin]
  | false =>
    have hfit : a.length + b.length ≤ maxB := by
      rw [hbin] at h
      simpa using h
    simp [hbin, hfit]

theorem mkAdded_additions_fits (m : DiffModel) (maxB : Nat) (e : String × Nat)
    (h : sideFits m maxB e = true) :
    (mkAdded m true maxB e).additions =
      (match m.blob e.2 with
       | some buf => if is_binary buf then 0 else (linesKeepEnds buf).length
       | none => 0) := by
  unfold mkAdded
  unfold sideFits at h
  cases hb : m.blob e.2 <;> rw [hb] at h <;> dsimp only at h ⊢
  rename_i buf
  cases hbin : is_binary buf with
  | true => simp [hbin]
  | false =>
    have hfit : buf.length ≤ maxB := by
      rw [hbin] at h
      simpa using h
    simp [hbin, hfit]

theorem mkDeleted_deletions_fits (m : DiffModel) (maxB : Nat) (e : String × Nat)
    (h : sideFits m maxB e = true) :
    (mkDeleted m true maxB e).deletions =
      (match m.blob e.2 with
       | some buf => if is_binary buf then 0 else (linesKeepEnds buf).length
       | none => 0) := by
  unfold mkDeleted
  unfold sideFits at h
  cases hb : m.blob e.2 <;> rw [hb] at h <;> dsimp only at h ⊢
  rename_i buf
  cases hbin : is_binary buf with
  | true => simp [hbin]
  | false =>
    have hfit : buf.length ≤ maxB := by
      rw [hbin] at h
      simpa using h
    simp [hbin, hfit]

/-- C1 (amended).  When `include_contents` is true and every changed
file that is non-binary fits within `max_bytes` (both sides for a
modification, the single side for an addition or deletion), the sums of
the emitted `additions`/`deletions` equal the totals of
`git diff --numstat` as modelled from the spec (minimal line-diff
counts, `-` as 0, exact renames as `0 0`).  Outside those hypotheses —
`include_contents = false`, or any oversize text file — the engine emits
zero counts for the gated entries and the totals can differ, as
`diff_totals_counterexample` shows; the concrete pair `(63f3bf66…,
0ae5f5b2…)` with totals `(6, 30)` lives in the external repository under
test and is outside the embedding. -/
theorem diff_totals_match_numstat (m : DiffModel) (maxB : Nat)
    (hM : ∀ t ∈ bothChanged m, modFits m maxB t = true)
    (hA : ∀ e ∈ addedList m, sideFits m maxB e = true)
    (hD : ∀ e ∈ deletedList m, sideFits m maxB e = true) :
    sumAdds (diffEntriesCore m true maxB) = numstatAdds m ∧
    sumDels (diffEntriesCore m true maxB) = numstatDels m := by
  unfold sumAdds sumDels diffEntriesCore numstatAdds numstatDels
  simp only [List.map_append, List.sum_append, List.map_map]
  constructor
  · have hR : ((renamedPairs m).map ((fun e => e.additions) ∘ mkRenamed m true maxB)).sum = 0 := by
      apply List.sum_eq_zero
      intro x hx
      obtain ⟨pr, _, rfl⟩ := List.mem_map.mp hx
      exact (mkRenamed_fields m true maxB pr).2.2.2.1
    have hDel : ((deletedList m).map ((fun e => e.additions) ∘ mkDeleted m true maxB)).sum = 0 := by
      apply List.sum_eq_zero
      intro x hx
      obtain ⟨d, _, rfl⟩ := List.mem_map.mp hx
      exact (mkDeleted_fields m true maxB d).2.2.2
    have hMod : ((bothChanged m).map ((fun e => e.additions) ∘ mkModified m true maxB)) =
        ((bothChanged m).map (fun t =>
          match m.blob t.2.1, m.blob t.2.2 with
          | some a, some b =>
            if is_binary a || is_binary b then 0
            else diffAdds (linesKeepEnds a) (linesKeepEnds b)
          | _, _ => 0)) := by
      apply List.map_congr_left
      intro t ht
      exact mkModified_additions_fits m maxB t (hM t ht)
    have hAdd : ((addedList m).map ((fun e => e.additions) ∘ mkAdded m true maxB)) =
        ((addedList m).map (fun e =>
          match m.blob e.2 with
          | some buf => if is_binary buf then 0 else (linesKeepEnds buf).length
          | none => 0)) := by
      apply List.map_congr_left
      intro e he
      exact mkAdded_additions_fits m maxB e (hA e he)
    rw [hR, hMod, hAdd, hDel]
    omega
  · have hR : ((renamedPairs m).map ((fun e => e.deletions) ∘ mkRenamed m true maxB)).sum = 0 := by
      apply List.sum_eq_zero
      intro x hx
      obtain ⟨pr, _, rfl⟩ := List.mem_map.mp hx
      exact (mkRenamed_fields m true maxB pr).2.2.2.2.1
    have hAddZ : ((addedList m).map ((fun e => e.deletions) ∘ mkAdded m true maxB)).sum = 0 := by
      apply List.sum_eq_zero
      intro x hx
      obtain ⟨d, _, rfl⟩ := List.mem_map.mp hx
      exact (mkAdded_fields m true maxB d).2.2.2
    have hMod : ((bothChanged m).map ((fun e => e.deletions) ∘ mkModified m true maxB)) =
        ((bothChanged m).map (fun t =>
          match m.blob t.2.1, m.blob t.2.2 with
          | some a, some b =>
            if is_binary a || is_binary b then 0
            else diffDels (linesKeepEnds a) (linesKeepEnds b)
          | _, _ => 0)) := by
      apply List.map_congr_left
      intro t ht
      exact mkModified_deletions_fits m maxB t (hM t ht)
    have hDel : ((deletedList m).map ((fun e => e.deletions) ∘ mkDeleted m true maxB)) =
        ((deletedList m).map (fun e =>
          match m.blob e.2 with
          | some buf => if is_binary buf then 0 else (linesKeepEnds buf).length
          | none => 0)) := by
      apply List.map_congr_left
      intro e he
      exact mkDeleted_deletions_fits m maxB e (hD e he)
    rw [hR, hMod, hAddZ, hDel]
    omega

/-- Witness for C1 (amended) on the concrete model (everything fits in
100 bytes): both totals agree. -/
theorem diff_totals_match_numstat_witness :
    sumAdds (diffEntriesCore exDiffModel true 100) = numstatAdds exDiffModel ∧
    sumDels (diffEntriesCore exDiffModel true 100) = numstatDels exDiffModel :=
  diff_totals_match_numstat exDiffModel 100 (by decide) (by decide) (by decide)

/-! ### Rename pairing (C5) -/

theorem mem_baseOnly {m : DiffModel} {e : String × Nat} :
    e ∈ baseOnly m ↔ e.1 ∈ m.paths ∧ m.base e.1 = some e.2 ∧ m.head e.1 = none := by
  unfold baseOnly
  rw [List.mem_filterMap]
  constructor
  · rintro ⟨p, hp, hf⟩
    cases hb : m.base p <;> cases hh : m.head p <;> rw [hb, hh] at hf <;> dsimp at hf
    · cases hf
    · cases hf
    · cases hf
      exact ⟨hp, hb, hh⟩
    · cases hf
  · rintro ⟨hp, hb, hh⟩
    exact ⟨e.1, hp, by rw [hb, hh]⟩

theorem mem_headOnly {m : DiffModel} {e : String × Nat} :
    e ∈ headOnly m ↔ e.1 ∈ m.paths ∧ m.base e.1 = none ∧ m.head e.1 = some e.2 := by
  unfold headOnly
  rw [List.mem_filterMap]
  constructor
  · rintro ⟨p, hp, hf⟩
    cases hb : m.base p <;> cases hh : m.head p <;> rw [hb, hh] at hf <;> dsimp at hf
    · cases hf
    · cases hf
      exact ⟨hp, hb, hh⟩
    · cases hf
    · cases hf
  · rintro ⟨hp, hb, hh⟩
    exact ⟨e.1, hp, by rw [hb, hh]⟩

theorem mem_bothChanged {m : DiffModel} {t : String × Nat × Nat} :
    t ∈ bothChanged m ↔ t.1 ∈ m.paths ∧ m.base t.1 = some t.2.1 ∧
      m.head t.1 = some t.2.2 ∧ t.2.1 ≠ t.2.2 := by
  unfold bothChanged
  rw [List.mem_filterMap]
  constructor
  · rintro ⟨p, hp, hf⟩
    cases hb : m.base p <;> cases hh : m.head p <;> rw [hb, hh] at hf <;> dsimp at hf
    · cases hf
    · cases hf
    · cases hf
    · rename_i o1 o2
      by_cases ho : o1 = o2
      · rw [if_pos ho] at hf
        cases hf
      · rw [if_neg ho] at hf
        cases hf
        exact ⟨hp, hb, hh, ho⟩
  · rintro ⟨hp, hb, hh, hne⟩
    exact ⟨t.1, hp, by simp [hb, hh, hne]⟩

/-- `filterMap` whose results carry their source as key, projected back
to the keys, is a `filter` of the source list. -/
theorem map_key_filterMap {α β : Type} (l : List α) (f : α → Option β) (key : β → α)
    (hf : ∀ p e, f p = some e → key e = p) :
    (l.filterMap f).map key = l.filter (fun p => (f p).isSome) := by
  induction l with
  | nil => rfl
  | cons p ps ih =>
    cases hfp : f p
    · simp only [List.filterMap_cons, hfp, List.filter_cons]
      simpa using ih
    · rename_i e
      simp only [List.filterMap_cons, hfp, List.filter_cons, List.map_cons, Option.isSome_some,
        if_pos]
      rw [hf p e hfp, ih]

theorem baseOnly_keys_nodup {m : DiffModel} (h : m.paths.Nodup) :
    ((baseOnly m).map Prod.fst).Nodup := by
  unfold baseOnly
  rw [map_key_filterMap _ _ _ (by
    intro p e hf
    cases hb : m.base p <;> cases hh : m.head p <;> rw [hb, hh] at hf <;> dsimp at hf <;>
      cases hf <;> rfl)]
  exact h.sublist (List.filter_sublist _)

theorem headOnly_keys_nodup {m : DiffModel} (h : m.paths.Nodup) :
    ((headOnly m).map Prod.fst).Nodup := by
  unfold headOnly
  rw [map_key_filterMap _ _ _ (by
    intro p e hf
    cases hb : m.base p <;> cases hh : m.head p <;> rw [hb, hh] at hf <;> dsimp at hf <;>
      cases hf <;> rfl)]
  exact h.sublist (List.filter_sublist _)

theorem bothChanged_keys_nodup {m : DiffModel} (h : m.paths.Nodup) :
    ((bothChanged m).map Prod.fst).Nodup := by
  unfold bothChanged
  rw [map_key_filterMap _ _ _ (by
    intro p e hf
    cases hb : m.base p <;> cases hh : m.head p <;> rw [hb, hh] at hf <;> dsimp at hf
    · cases hf
    · cases hf
    · cases hf
    · rename_i o1 o2
      by_cases ho : o1 = o2
      · rw [if_pos ho] at hf
        cases hf
      · rw [if_neg ho] at hf
        cases hf
        rfl)]
  exact h.sublist (List.filter_sublist _)

theorem mem_pathsWithOid {l : List (String × Nat)} {o : Nat} {p : String} :
    p ∈ pathsWithOid l o ↔ (p, o) ∈ l := by
  unfold pathsWithOid
  rw [List.mem_filterMap]
  constructor
  · rintro ⟨e, he, hf⟩
    by_cases ho : e.2 = o
    · rw [if_pos ho] at hf
      cases hf
      have : e = (e.1, o) := by
        cases e
        cases ho
        rfl
      rw [← this]
      exact he
    · rw [if_neg ho] at hf
      cases hf
  · intro h
    exact ⟨(p, o), h, by simp⟩

theorem pathsWithOid_eq (l : List (String × Nat)) (o : Nat) :
    pathsWithOid l o = (l.filter (fun e => e.2 == o)).map Prod.fst := by
  induction l with
  | nil => rfl
  | cons e es ih =>
    unfold pathsWithOid at ih ⊢
    by_cases ho : e.2 = o
    · simp [List.filterMap_cons, if_pos ho, List.filter_cons, ho, ih]
    · simp [List.filterMap_cons, if_neg ho, List.filter_cons, ho, ih]

theorem pathsWithOid_nodup {l : List (String × Nat)} {o : Nat}
    (h : (l.map Prod.fst).Nodup) : (pathsWithOid l o).Nodup := by
  rw [pathsWithOid_eq]
  exact h.sublist ((List.filter_sublist l).map Prod.fst)

theorem renamedPairs_mem {m : DiffModel} {pr : String × String × Nat}
    (h : pr ∈ renamedPairs m) :
    (pr.1, pr.2.2) ∈ baseOnly m ∧ (pr.2.1, pr.2.2) ∈ headOnly m := by
  unfold renamedPairs at h
  simp only [List.mem_flatMap, List.mem_map] at h
  obtain ⟨o, ho, ⟨po, pn⟩, hz, heq⟩ := h
  cases heq
  obtain ⟨h1, h2⟩ := List.of_mem_zip hz
  exact ⟨mem_pathsWithOid.mp (List.mem_reverse.mp (List.take_subset _ _ h1)),
    mem_pathsWithOid.mp (List.mem_reverse.mp (List.take_subset _ _ h2))⟩

theorem pairedNewPaths_eq (m : DiffModel) :
    pairedNewPaths m = (((baseOnly m).map Prod.snd).dedup).flatMap (fun o =>
      (pathsWithOid (headOnly m) o).reverse.take
        (min (pathsWithOid (baseOnly m) o).length (pathsWithOid (headOnly m) o).length)) := by
  unfold pairedNewPaths renamedPairs
  rw [List.map_flatMap]
  congr 1
  funext o
  dsimp only
  rw [List.map_map]
  have hcomp : ((fun (t : String × String × Nat) => t.2.1) ∘
      fun pr : String × String => (pr.1, pr.2, o)) = Prod.snd := rfl
  rw [hcomp, List.map_snd_zip]
  simp [List.length_take, List.length_reverse]

theorem pairedOldPaths_eq (m : DiffModel) :
    pairedOldPaths m = (((baseOnly m).map Prod.snd).dedup).flatMap (fun o =>
      (pathsWithOid (baseOnly m) o).reverse.take
        (min (pathsWithOid (baseOnly m) o).length (pathsWithOid (headOnly m) o).length)) := by
  unfold pairedOldPaths renamedPairs
  rw [List.map_flatMap]
  congr 1
  funext o
  dsimp only
  rw [List.map_map]
  have hcomp : ((fun (t : String × String × Nat) => t.1) ∘
      fun pr : String × String => (pr.1, pr.2, o)) = Prod.fst := rfl
  rw [hcomp, List.map_fst_zip]
  simp [List.length_take, List.length_reverse]

theorem pairedNewPaths_nodup {m : DiffModel} (h : m.paths.Nodup) :
    (pairedNewPaths m).Nodup := by
  rw [pairedNewPaths_eq, List.nodup_flatMap]
  constructor
  · intro o _
    exact List.Nodup.sublist (List.take_sublist _ _)
      (List.nodup_reverse.mpr (pathsWithOid_nodup (headOnly_keys_nodup h)))
  · refine List.Pairwise.imp ?_ (List.nodup_dedup _)
    intro o₁ o₂ hne p hp₁ hp₂
    have h1 : (p, o₁) ∈ headOnly m :=
      mem_pathsWithOid.mp (List.mem_reverse.mp (List.take_subset _ _ hp₁))
    have h2 : (p, o₂) ∈ headOnly m :=
      mem_pathsWithOid.mp (List.mem_reverse.mp (List.take_subset _ _ hp₂))
    have e1 := (mem_headOnly.mp h1).2.2
    have e2 := (mem_headOnly.mp h2).2.2
    rw [e1] at e2
    exact hne (Option.some.inj e2)

theorem pairedOldPaths_nodup {m : DiffModel} (h : m.paths.Nodup) :
    (pairedOldPaths m).Nodup := by
  rw [pairedOldPaths_eq, List.nodup_flatMap]
  constructor
  · intro o _
    exact List.Nodup.sublist (List.take_sublist _ _)
      (List.nodup_reverse.mpr (pathsWithOid_nodup (baseOnly_keys_nodup h)))
  · refine List.Pairwise.imp ?_ (List.nodup_dedup _)
    intro o₁ o₂ hne p hp₁ hp₂
    have h1 : (p, o₁) ∈ baseOnly m :=
      mem_pathsWithOid.mp (List.mem_reverse.mp (List.take_subset _ _ hp₁))
    have h2 : (p, o₂) ∈ baseOnly m :=
      mem_pathsWithOid.mp (List.mem_reverse.mp (List.take_subset _ _ hp₂))
    have e1 := (mem_baseOnly.mp h1).2.1
    have e2 := (mem_baseOnly.mp h2).2.1
    rw [e1] at e2
    exact hne (Option.some.inj e2)

theorem mem_pairedNewPaths {m : DiffModel} {p : String} (h : p ∈ pairedNewPaths m) :
    ∃ o, (p, o) ∈ headOnly m := by
  unfold pairedNewPaths at h
  rw [List.mem_map] at h
  obtain ⟨pr, hpr, hp⟩ := h
  cases hp
  exact ⟨pr.2.2, (renamedPairs_mem hpr).2⟩

theorem mem_pairedOldPaths {m : DiffModel} {p : String} (h : p ∈ pairedOldPaths m) :
    ∃ o, (p, o) ∈ baseOnly m := by
  unfold pairedOldPaths at h
  rw [List.mem_map] at h
  obtain ⟨pr, hpr, hp⟩ := h
  cases hp
  exact ⟨pr.2.2, (renamedPairs_mem hpr).1⟩

theorem core_filePaths (m : DiffModel) (inc : Bool) (maxB : Nat) :
    (diffEntriesCore m inc maxB).map (·.filePath) =
      pairedNewPaths m ++ (bothChanged m).map Prod.fst ++ (addedList m).map Prod.fst ++
      (deletedList m).map Prod.fst := by
  unfold diffEntriesCore pairedNewPaths
  simp only [List.map_append, List.map_map]
  have h1 : (renamedPairs m).map ((fun e => e.filePath) ∘ mkRenamed m inc maxB) =
      (renamedPairs m).map (fun t => t.2.1) :=
    List.map_congr_left (fun pr _ => (mkRenamed_fields m inc maxB pr).2.1)
  have h2 : (bothChanged m).map ((fun e => e.filePath) ∘ mkModified m inc maxB) =
      (bothChanged m).map Prod.fst :=
    List.map_congr_left (fun t _ => (mkModified_fields m inc maxB t).2.1)
  have h3 : (addedList m).map ((fun e => e.filePath) ∘ mkAdded m inc maxB) =
      (addedList m).map Prod.fst :=
    List.map_congr_left (fun e _ => (mkAdded_fields m inc maxB e).2.1)
  have h4 : (deletedList m).map ((fun e => e.filePath) ∘ mkDeleted m inc maxB) =
      (deletedList m).map Prod.fst :=
    List.map_congr_left (fun e _ => (mkDeleted_fields m inc maxB e).2.1)
  rw [h1, h2, h3, h4]

theorem core_oldPaths (m : DiffModel) (inc : Bool) (maxB : Nat) :
    (diffEntriesCore m inc maxB).filterMap (·.oldPath) = pairedOldPaths m := by
  unfold diffEntriesCore pairedOldPaths
  simp only [List.filterMap_append, List.filterMap_map]
  have h1 : (renamedPairs m).filterMap ((fun e => e.oldPath) ∘ mkRenamed m inc maxB) =
      (renamedPairs m).map (fun t => t.1) := by
    have hc := List.filterMap_congr (l := renamedPairs m)
      (f := (fun e => e.oldPath) ∘ mkRenamed m inc maxB) (g := fun pr => some pr.1)
      (fun pr _ => show ((fun e => e.oldPath) ∘ mkRenamed m inc maxB) pr =
          some pr.1 from (mkRenamed_fields m inc maxB pr).2.2.1)
    rw [hc]
    exact congrFun (List.filterMap_eq_map (fun pr : String × String × Nat => pr.1)) _
  have h2 : (bothChanged m).filterMap ((fun e => e.oldPath) ∘ mkModified m inc maxB) = [] :=
    List.filterMap_eq_nil_iff.mpr (fun t _ => (mkModified_fields m inc maxB t).2.2)
  have h3 : (addedList m).filterMap ((fun e => e.oldPath) ∘ mkAdded m inc maxB) = [] :=
    List.filterMap_eq_nil_iff.mpr (fun e _ => (mkAdded_fields m inc maxB e).2.2.1)
  have h4 : (deletedList m).filterMap ((fun e => e.oldPath) ∘ mkDeleted m inc maxB) = [] :=
    List.filterMap_eq_nil_iff.mpr (fun e _ => (mkDeleted_fields m inc maxB e).2.2.1)
  rw [h1, h2, h3, h4]
  simp

theorem mem_addedList {m : DiffModel} {e : String × Nat} :
    e ∈ addedList m ↔ e ∈ headOnly m ∧ ¬ e.1 ∈ pairedNewPaths m := by
  unfold addedList
  rw [List.mem_filter]
  simp

theorem mem_deletedList {m : DiffModel} {e : String × Nat} :
    e ∈ deletedList m ↔ e ∈ baseOnly m ∧ ¬ e.1 ∈ pairedOldPaths m := by
  unfold deletedList
  rw [List.mem_filter]
  simp

/-- C5.  Rename emission is well-formed: every renamed entry has zero
additions and deletions, equal old and new contents (both populated or
both absent), and an old path different from its new path; and the
pairing is one-to-one — the emitted `file_path`s are pairwise distinct
across the whole result, and so are the present `old_path`s. -/
theorem rename_pairing_well_formed (m : DiffModel) (inc : Bool) (maxB : Nat)
    (hnd : m.paths.Nodup) :
    (∀ e ∈ diffEntriesCore m inc maxB, e.status = "renamed" →
      e.additions = 0 ∧ e.deletions = 0 ∧ e.oldContent = e.newContent ∧
      e.oldPath ≠ some e.filePath) ∧
    ((diffEntriesCore m inc maxB).map (·.filePath)).Nodup ∧
    ((diffEntriesCore m inc maxB).filterMap (·.oldPath)).Nodup := by
  have memR : ∀ p, p ∈ pairedNewPaths m → m.base p = none ∧ m.head p ≠ none := by
    intro p hp
    obtain ⟨o, ho⟩ := mem_pairedNewPaths hp
    obtain ⟨-, hb, hh⟩ := mem_headOnly.mp ho
    exact ⟨hb, by rw [hh]; exact Option.noConfusion⟩
  have memM : ∀ p, p ∈ (bothChanged m).map Prod.fst →
      m.base p ≠ none ∧ m.head p ≠ none := by
    intro p hp
    obtain ⟨t, ht, rfl⟩ := List.mem_map.mp hp
    obtain ⟨-, hb, hh, -⟩ := mem_bothChanged.mp ht
    exact ⟨by rw [hb]; exact Option.noConfusion, by rw [hh]; exact Option.noConfusion⟩
  have memA : ∀ p, p ∈ (addedList m).map Prod.fst →
      m.base p = none ∧ m.head p ≠ none ∧ ¬ p ∈ pairedNewPaths m := by
    intro p hp
    obtain ⟨e, he, rfl⟩ := List.mem_map.mp hp
    obtain ⟨hho, hnp⟩ := mem_addedList.mp he
    obtain ⟨-, hb, hh⟩ := mem_headOnly.mp hho
    exact ⟨hb, by rw [hh]; exact Option.noConfusion, hnp⟩
  have memD : ∀ p, p ∈ (deletedList m).map Prod.fst →
      m.base p ≠ none ∧ m.head p = none := by
    intro p hp
    obtain ⟨e, he, rfl⟩ := List.mem_map.mp hp
    obtain ⟨hbo, -⟩ := mem_deletedList.mp he
    obtain ⟨-, hb, hh⟩ := mem_baseOnly.mp hbo
    exact ⟨by rw [hb]; exact Option.noConfusion, hh⟩
  refine ⟨?_, ?_, ?_⟩
  · intro e he hst
    unfold diffEntriesCore at he
    rcases List.mem_append.mp he with he | he
    · rcases List.mem_append.mp he with he | he
      · rcases List.mem_append.mp he with he | he
        · obtain ⟨pr, hpr, rfl⟩ := List.mem_map.mp he
          obtain ⟨-, hfp, hop, h4, h5, h6⟩ := mkRenamed_fields m inc maxB pr
          refine ⟨h4, h5, h6, ?_⟩
          rw [hfp, hop]
          intro hcontra
          have hpp := Option.some.inj hcontra
          obtain ⟨hb, hh⟩ := renamedPairs_mem hpr
          have e1 := (mem_baseOnly.mp hb).2.2
          have e2 := (mem_headOnly.mp hh).2.2
          rw [hpp] at e1
          rw [e1] at e2
          cases e2
        · obtain ⟨t, _, rfl⟩ := List.mem_map.mp he
          rw [(mkModified_fields m inc maxB t).1] at hst
          exact absurd hst (by decide)
      · obtain ⟨x, _, rfl⟩ := List.mem_map.mp he
        rw [(mkAdded_fields m inc maxB x).1] at hst
        exact absurd hst (by decide)
    · obtain ⟨x, _, rfl⟩ := List.mem_map.mp he
      rw [(mkDeleted_fields m inc maxB x).1] at hst
      exact absurd hst (by decide)
  · rw [core_filePaths]
    have hR := pairedNewPaths_nodup hnd
    have hM := bothChanged_keys_nodup hnd
    have hA : ((addedList m).map Prod.fst).Nodup :=
      (headOnly_keys_nodup hnd).sublist ((List.filter_sublist _).map Prod.fst)
    have hD : ((deletedList m).map Prod.fst).Nodup :=
      (baseOnly_keys_nodup hnd).sublist ((List.filter_sublist _).map Prod.fst)
    have dRM : (pairedNewPaths m).Disjoint ((bothChanged m).map Prod.fst) :=
      fun p hp1 hp2 => (memM p hp2).1 (memR p hp1).1
    have dRA : (pairedNewPaths m).Disjoint ((addedList m).map Prod.fst) :=
      fun p hp1 hp2 => (memA p hp2).2.2 hp1
    have dRD : (pairedNewPaths m).Disjoint ((deletedList m).map Prod.fst) :=
      fun p hp1 hp2 => (memR p hp1).2 (memD p hp2).2
    have dMA : ((bothChanged m).map Prod.fst).Disjoint ((addedList m).map Prod.fst) :=
      fun p hp1 hp2 => (memM p hp1).1 (memA p hp2).1
    have dMD : ((bothChanged m).map Prod.fst).Disjoint ((deletedList m).map Prod.fst) :=
      fun p hp1 hp2 => (memM p hp1).2 (memD p hp2).2
    have dAD : ((addedList m).map Prod.fst).Disjoint ((deletedList m).map Prod.fst) :=
      fun p hp1 hp2 => (memD p hp2).1 (memA p hp1).1
    simp only [List.nodup_append, List.disjoint_append_left]
    exact ⟨⟨⟨hR, hM, dRM⟩, hA, dRA, dMA⟩, hD, ⟨dRD, dMD⟩, dAD⟩
  · rw [core_oldPaths]
    exact pairedOldPaths_nodup hnd

/-- Witness for C5 on the concrete model, which contains one identity
rename besides a modification and an addition. -/
theorem rename_pairing_well_formed_witness :
    (∀ e ∈ diffEntriesCore exDiffModel true 100, e.status = "renamed" →
      e.additions = 0 ∧ e.deletions = 0 ∧ e.oldContent = e.newContent ∧
      e.oldPath ≠ some e.filePath) ∧
    ((diffEntriesCore exDiffModel true 100).map (·.filePath)).Nodup ∧
    ((diffEntriesCore exDiffModel true 100).filterMap (·.oldPath)).Nodup :=
  rename_pairing_well_formed exDiffModel true 100 (by decide)

/-! ## Top-level `diff_refs` (resolution, merge base, trees, CLI fallback) -/

/-- A commit object: parent ids and the root tree id. -/
structure CommitData where
  parents : List Nat
  tree : Nat
deriving DecidableEq, Repr

/-- A repository as `diff_refs` sees it after `gix::open`: the resolver
state, the commit objects, the (already flattened, as produced by
`collect_tree_blobs`) trees, and blob contents. -/
structure GitRepoModel where
  resolver : RefRepo
  commits : List (Nat × CommitData)
  trees : List (Nat × List (String × Nat))
  blob : Nat → Option (List Nat)

/-- `repo.find_object(oid)?.try_into_commit()?`. -/
def findCommit (g : GitRepoModel) (oid : Nat) : Option CommitData :=
  ((g.commits.find? (fun e => e.1 == oid)).map (·.2))

/-- Tree lookup (`find_object` + `try_into_tree` + `collect_tree_blobs`). -/
def findTree (g : GitRepoModel) (tid : Nat) : Option (List (String × Nat)) :=
  ((g.trees.find? (fun e => e.1 == tid)).map (·.2))

/-- `commit.parent_ids()`, empty for unknown commits. -/
def parentsOf (g : GitRepoModel) (c : Nat) : List Nat :=
  ((findCommit g c).map (·.parents)).getD []

/-- Reflexive-transitive ancestry along parent edges, with explicit fuel
(the number of commits always suffices on a repository's finite DAG). -/
def isAncestorFuel (pf : Nat → List Nat) : Nat → Nat → Nat → Bool
  | 0, anc, desc => anc == desc
  | n + 1, anc, desc => anc == desc || (pf desc).any (fun p => isAncestorFuel pf n anc p)

/-- `anc` is an ancestor of `desc` (including `anc = desc`). -/
def isAncestor (g : GitRepoModel) (anc desc : Nat) : Bool :=
  isAncestorFuel (parentsOf g) g.commits.length anc desc

/-- Modelled from the spec: `merge_base` with `MergeBaseStrategy::Git`
shells out to `git merge-base A B` (`merge_base/git.rs` is not under
`src/`).  Git's merge base is a best (ancestry-maximal) common ancestor:
when one tip is an ancestor of the other — including the reflexive case —
that tip is the unique best common ancestor and is returned; otherwise
some common ancestor is returned when any exists, and none otherwise. -/
def mergeBaseGit (g : GitRepoModel) (a b : Nat) : Option Nat :=
  if isAncestor g b a then some b
  else if isAncestor g a b then some a
  else ((g.commits.map Prod.fst).filter (fun c => isAncestor g c a && isAncestor g c b)).head?

/-- Association-list lookup used for both tree maps. -/
def treeToFun (t : List (String × Nat)) : String → Option Nat :=
  fun p => ((t.find? (fun e => e.1 == p)).map (·.2))

/-- The `DiffModel` built from the two enumerated trees. -/
def modelOfTrees (t1 t2 : List (String × Nat)) (blob : Nat → Option (List Nat)) : DiffModel where
  paths := (t1.map Prod.fst ++ t2.map Prod.fst).dedup
  base := treeToFun t1
  head := treeToFun t2
  blob := blob

/-- A parsed line of `git diff --name-status` output. -/
inductive NameStatusLine where
  | addedL (p : String)
  | modifiedL (p : String)
  | deletedL (p : String)
  | renamedL (oldP newP : String)
deriving DecidableEq, Repr

/-- Modelled from the spec: the parsed lines of
`git diff --name-status <base> <head>` (the git CLI is external to
`src/`): one line per differing path, classified by the state machine of
§4.J of the spec, with `--find-renames` pairing exact renames. -/
def cliNameStatus (dm : DiffModel) : List NameStatusLine :=
  ((renamedPairs dm).map (fun t => NameStatusLine.renamedL t.1 t.2.1)) ++
  ((bothChanged dm).map (fun t => NameStatusLine.modifiedL t.1)) ++
  ((addedList dm).map (fun e => NameStatusLine.addedL e.1)) ++
  ((deletedList dm).map (fun e => NameStatusLine.deletedL e.1))

/-- `git show <head>:<path>` (resp. `<base>:<path>`), resolved through
the tree map and the blob store. -/
def gitShow (side : String → Option Nat) (blob : Nat → Option (List Nat)) (p : String) :
    Option (List Nat) :=
  match side p with
  | some oid => blob oid
  | none => none

/-- One entry of the CLI fallback branch of `diff_refs` (the parser over
`--name-status` lines; binary detection is not applied there). -/
def mkFallback (dm : DiffModel) (inc : Bool) (maxB : Nat) : NameStatusLine → DiffEntry
  | .addedL p =>
    let e0 : DiffEntry := { filePath := p, status := "added", isBinary := false }
    if inc then
      match gitShow dm.head dm.blob p with
      | some buf =>
        if buf.length ≤ maxB then
          { e0 with newSize := some buf.length
                    oldSize := some 0
                    newContent := some buf
                    oldContent := some []
                    additions := (linesKeepEnds buf).length
                    contentOmitted := some false }
        else
          { e0 with newSize := some buf.length
                    oldSize := some 0
                    contentOmitted := some true }
      | none => e0
    else e0
  | .modifiedL p =>
    let e0 : DiffEntry := { filePath := p, status := "modified", isBinary := false }
    if inc then
      let oldS := (gitShow dm.base dm.blob p).getD []
      let newS := (gitShow dm.head dm.blob p).getD []
      if oldS.length + newS.length ≤ maxB then
        { e0 with oldSize := some oldS.length
                  newSize := some newS.length
                  additions := diffAdds (linesKeepEnds oldS) (linesKeepEnds newS)
                  deletions := diffDels (linesKeepEnds oldS) (linesKeepEnds newS)
                  oldContent := some oldS
                  newContent := some newS
                  contentOmitted := some false }
      else
        { e0 with oldSize := some oldS.length
                  newSize := some newS.length
                  contentOmitted := some true }
    else e0
  | .deletedL p =>
    let e0 : DiffEntry := { filePath := p, status := "deleted", isBinary := false }
    if inc then
      match gitShow dm.base dm.blob p with
      | some buf =>
        if buf.length ≤ maxB then
          { e0 with oldSize := some buf.length
                    oldContent := some buf
                    newContent := some []
                    deletions := (linesKeepEnds buf).length
                    contentOmitted := some false }
        else
          { e0 with oldSize := some buf.length
                    contentOmitted := some true }
      | none => e0
    else e0
  | .renamedL oldP newP =>
    let e0 : DiffEntry :=
      { filePath := newP, oldPath := some oldP, status := "renamed", isBinary := false }
    if inc then
      let newS := (gitShow dm.head dm.blob newP).getD []
      if newS.length ≤ maxB then
        { e0 with newSize := some newS.length
                  oldSize := some newS.length
                  oldContent := some newS
                  newContent := some newS
                  contentOmitted := some false }
      else
        { e0 with newSize := some newS.length
                  oldSize := some newS.length
                  contentOmitted := some true }
    else e0

/-- The options record of `git_diff_refs` (the fields the embedded
engine consumes; repository selection is resolved into `GitRepoModel`). -/
structure GitDiffRefsOptions where
  ref1 : String
  ref2 : String
  includeContents : Option Bool := none
  maxBytes : Option Nat := none

/-- `diff_refs` from `core/src/diff/refs.rs`, from revision resolution
onward (repository acquisition and the ignored SWR fetch precede this;
`gix::open` errors also propagate before this point).  Resolver failure
on either rev yields `Ok([])`; object lookups after resolution propagate
errors; when the tree comparison is empty the CLI fallback runs and its
result is returned only when non-empty. -/
def diff_refs (g : GitRepoModel) (opts : GitDiffRefsOptions) : Except String (List DiffEntry) :=
  let inc := opts.includeContents.getD true
  let maxB := opts.maxBytes.getD (950 * 1024)
  match oid_from_rev_parse g.resolver opts.ref1 with
  | none => .ok []
  | some r1 =>
    match oid_from_rev_parse g.resolver opts.ref2 with
    | none => .ok []
    | some r2 =>
      let base := (mergeBaseGit g r1 r2).getD r1
      match findCommit g base with
      | none => .error "failed to find base commit object"
      | some bc =>
        match findTree g bc.tree with
        | none => .error "failed to find base tree"
        | some t1 =>
          match findCommit g r2 with
          | none => .error "failed to find head commit object"
          | some hc =>
            match findTree g hc.tree with
            | none => .error "failed to find head tree"
            | some t2 =>
              let dm := modelOfTrees t1 t2 g.blob
              let out := diffEntriesCore dm inc maxB
              if out.isEmpty then
                let fb := (cliNameStatus dm).map (mkFallback dm inc maxB)
                if fb.isEmpty then .ok out else .ok fb
              else .ok out

/-- When the two tree maps coincide, every partition of the diff is
empty, so both the tree comparison and the (spec-modelled) CLI
name-status are empty. -/
theorem diffEntriesCore_base_eq_head (dm : DiffModel) (heq : dm.base = dm.head)
    (inc : Bool) (maxB : Nat) :
    diffEntriesCore dm inc maxB = [] ∧ cliNameStatus dm = [] := by
  have hbo : baseOnly dm = [] := by
    unfold baseOnly
    rw [List.filterMap_eq_nil_iff]
    intro p _
    rw [heq]
    cases dm.head p <;> rfl
  have hho : headOnly dm = [] := by
    unfold headOnly
    rw [List.filterMap_eq_nil_iff]
    intro p _
    rw [heq]
    cases dm.head p <;> rfl
  have hbc : bothChanged dm = [] := by
    unfold bothChanged
    rw [List.filterMap_eq_nil_iff]
    intro p _
    rw [heq]
    cases dm.head p <;> simp
  have hrp : renamedPairs dm = [] := by
    unfold renamedPairs
    rw [hbo]
    rfl
  have hal : addedList dm = [] := by
    unfold addedList
    rw [hho]
    rfl
  have hdl : deletedList dm = [] := by
    unfold deletedList
    rw [hbo]
    rfl
  constructor
  · unfold diffEntriesCore
    rw [hrp, hbc, hal, hdl]
    rfl
  · unfold cliNameStatus
    rw [hrp, hbc, hal, hdl]
    rfl

/-- C2.  `diff_refs` turns resolver failure of either rev into
`Ok([])` — an empty diff, not an error — while failures after successful
resolution (here: the base commit object lookup) are propagated as
errors. -/
theorem diff_refs_resolver_failure_empty_ok (g : GitRepoModel) (opts : GitDiffRefsOptions) :
    (oid_from_rev_parse g.resolver opts.ref1 = none → diff_refs g opts = .ok []) ∧
    (∀ r1, oid_from_rev_parse g.resolver opts.ref1 = some r1 →
      oid_from_rev_parse g.resolver opts.ref2 = none → diff_refs g opts = .ok []) ∧
    (∀ r1 r2, oid_from_rev_parse g.resolver opts.ref1 = some r1 →
      oid_from_rev_parse g.resolver opts.ref2 = some r2 →
      findCommit g ((mergeBaseGit g r1 r2).getD r1) = none →
      diff_refs g opts = .error "failed to find base commit object") := by
  refine ⟨fun h1 => ?_, fun r1 h1 h2 => ?_, fun r1 r2 h1 h2 h3 => ?_⟩
  · unfold diff_refs
    rw [h1]
  · unfold diff_refs
    rw [h1, h2]
  · unfold diff_refs
    rw [h1, h2]
    dsimp only
    rw [h3]

/-- A concrete two-commit repository: `main` (commit 1) has parent
`feature` (commit 2); both commits share the same tree contents. -/
def exGitRepo : GitRepoModel where
  resolver :=
    { refs := [("refs/heads/main", 1), ("refs/heads/feature", 2)],
      revParse := fun _ => none }
  commits := [(1, ⟨[2], 10⟩), (2, ⟨[], 11⟩)]
  trees := [(10, [("f", 5)]), (11, [("f", 5)])]
  blob := fun o => if o = 5 then some (strToBytes "x\n") else none

/-- Witness for C2: an unresolvable `ref1` yields `Ok([])`. -/
theorem diff_refs_resolver_failure_empty_ok_witness :
    diff_refs exGitRepo { ref1 := "nope", ref2 := "feature" } = .ok [] :=
  (diff_refs_resolver_failure_empty_ok exGitRepo
    { ref1 := "nope", ref2 := "feature" }).1 (by decide)

/-- C3.  When `ref2` resolves to an ancestor (possibly reflexive) of
`ref1`, the merge base is that ancestor itself, base and head trees
coincide, and `diff_refs` returns the empty list (the CLI fallback also
produces nothing on an empty change set). -/
theorem diff_refs_ancestor_empty (g : GitRepoModel) (opts : GitDiffRefsOptions)
    (r1 r2 : Nat) (c : CommitData) (t : List (String × Nat))
    (h1 : oid_from_rev_parse g.resolver opts.ref1 = some r1)
    (h2 : oid_from_rev_parse g.resolver opts.ref2 = some r2)
    (hanc : isAncestor g r2 r1 = true)
    (hc : findCommit g r2 = some c)
    (ht : findTree g c.tree = some t) :
    diff_refs g opts = .ok [] := by
  unfold diff_refs
  rw [h1, h2]
  have hmb : mergeBaseGit g r1 r2 = some r2 := by
    unfold mergeBaseGit
    rw [if_pos hanc]
  dsimp only
  rw [hmb, Option.getD_some, hc]
  dsimp only
  rw [ht]
  dsimp only
  obtain ⟨hcore, hcli⟩ := diffEntriesCore_base_eq_head (modelOfTrees t t g.blob) rfl
    (opts.includeContents.getD true) (opts.maxBytes.getD (950 * 1024))
  rw [hcore, hcli]
  rfl

/-- Witness for C3 on the concrete repository: `feature` is an ancestor
of `main`, so diffing `main..feature` is empty. -/
theorem diff_refs_ancestor_empty_witness :
    diff_refs exGitRepo { ref1 := "main", ref2 := "feature" } = .ok [] :=
  diff_refs_ancestor_empty exGitRepo { ref1 := "main", ref2 := "feature" }
    1 2 ⟨[], 11⟩ [("f", 5)] (by decide) (by decide) (by decide) (by decide) (by decide)

end Cmux

namespace Cmux

/-! ## `merge_base_bfs` (time/src/merge_base/bfs.rs)

The bidirectional BFS state: two FIFO queues (`VecDeque` as lists popped
at the head and pushed at the tail), two distance maps (`HashMap` as
insert-once association lists), and the current best meeting point. -/

/-- The mutable state of `merge_base_bfs`. -/
structure BfsState where
  qa : List Nat
  qb : List Nat
  da : List (Nat × Nat)
  db : List (Nat × Nat)
  best : Option (Nat × Nat)
deriving Repr

/-- `HashMap::get`, on the association-list model (first hit wins;
entries are only ever inserted for fresh keys, so the list is keyed
uniquely). -/
def lookupD (d : List (Nat × Nat)) (v : Nat) : Option Nat :=
  (d.find? (fun e => e.1 == v)).map (·.2)

/-- The `best` update of `expand`: take the new meeting point when its
cost is strictly smaller (or when there was no best yet). -/
def bumpBest (pid : Nat) (cost : Nat) : Option (Nat × Nat) → Option (Nat × Nat)
  | none => some (pid, cost)
  | some (w, c) => if cost < c then some (pid, cost) else some (w, c)

/-- The `best` update applied only when the other side knows `pid`. -/
def updBest (d : Nat) (otherD : List (Nat × Nat)) (pid : Nat)
    (b : Option (Nat × Nat)) : Option (Nat × Nat) :=
  match lookupD otherD pid with
  | some od => bumpBest pid ((d + 1) + od) b
  | none => b

/-- The parent loop inside `expand`: for each parent of the popped
commit (in order), insert it at depth `d + 1` if unseen, enqueue it, and
when the other side already knows it, lower `best` to the new cost if
smaller. -/
def insertKids (d : Nat) (otherD : List (Nat × Nat)) :
    List Nat → List Nat × List (Nat × Nat) × Option (Nat × Nat) →
    List Nat × List (Nat × Nat) × Option (Nat × Nat)
  | [], acc => acc
  | pid :: ps, (qAcc, dAcc, bAcc) =>
    if (lookupD dAcc pid).isSome then insertKids d otherD ps (qAcc, dAcc, bAcc)
    else
      insertKids d otherD ps
        (qAcc ++ [pid], (pid, d + 1) :: dAcc, updBest d otherD pid bAcc)

/-- `expand` for one side: pop the front of `q`; with a recorded `best`,
drop the node without expanding when its depth already exceeds the best
cost (returning "no progress" like the Rust early stop); otherwise
insert all parents.  Returns (progressed, queue, this-side map, best). -/
def expandCore (g : Nat → List Nat) (q : List Nat) (thisD otherD : List (Nat × Nat))
    (best : Option (Nat × Nat)) :
    Bool × List Nat × List (Nat × Nat) × Option (Nat × Nat) :=
  match q with
  | [] => (false, q, thisD, best)
  | cur :: rest =>
    let d := (lookupD thisD cur).getD 0
    match best with
    | some (w, bc) =>
      if bc < d then (false, rest, thisD, some (w, bc))
      else
        let r := insertKids d otherD (g cur) (rest, thisD, some (w, bc))
        (true, r)
    | none =>
      let r := insertKids d otherD (g cur) (rest, thisD, none)
      (true, r)

/-- Dispatch `expand` on the chosen side of the state. -/
def stepSide (g : Nat → List Nat) (fromA : Bool) (s : BfsState) : Bool × BfsState :=
  if fromA then
    let r := expandCore g s.qa s.da s.db s.best
    (r.1, { s with qa := r.2.1, da := r.2.2.1, best := r.2.2.2 })
  else
    let r := expandCore g s.qb s.db s.da s.best
    (r.1, { s with qb := r.2.1, db := r.2.2.1, best := r.2.2.2 })

/-- The main loop: expand the smaller frontier; if that made no
progress, try the other side; stop when neither side progressed.  Fuel
makes the recursion structural; the caller passes enough for the loop to
reach its natural break. -/
def bfsLoop (g : Nat → List Nat) : Nat → BfsState → BfsState
  | 0, s => s
  | fuel + 1, s =>
    let nfa := decide (s.qa.length ≤ s.qb.length)
    let r1 := stepSide g nfa s
    if r1.1 then bfsLoop g fuel r1.2
    else
      let r2 := stepSide g (!nfa) r1.2
      if r2.1 then bfsLoop g fuel r2.2 else r2.2

/-- `merge_base_bfs` from `time/src/merge_base/bfs.rs` over a commit
graph `g` (parent ids) whose commits live in the finite list `N`
(`find_object` never fails on a well-formed repository, so the
`unwrap_or(false)` error path never fires).  Equal tips return
immediately; otherwise the bidirectional BFS runs to its natural break
(`2 * |N| + 2` fuel always suffices), and the best meeting point — or
`a` when none was found — is returned. -/
def merge_base_bfs (g : Nat → List Nat) (N : List Nat) (a b : Nat) : Option Nat :=
  if a = b then some a
  else
    let s0 : BfsState := { qa := [a], qb := [b], da := [(a, 0)], db := [(b, 0)], best := none }
    let s := bfsLoop g (2 * N.length + 2) s0
    match s.best with
    | some (v, _) => some v
    | none => some a

/-- Paths in the commit graph: `PathLen g r v n` holds when `v` is
reachable from `r` in exactly `n` parent steps.  BFS depth of `v` from
`r` is the least such `n`. -/
inductive PathLen (g : Nat → List Nat) : Nat → Nat → Nat → Prop where
  | refl (v : Nat) : PathLen g v v 0
  | step {r u v : Nat} {n : Nat} : PathLen g r u n → v ∈ g u → PathLen g r v (n + 1)

end Cmux

namespace Cmux

theorem lookupD_cons {d : List (Nat × Nat)} {k n v : Nat} :
    lookupD ((k, n) :: d) v = if k = v then some n else lookupD d v := by
  unfold lookupD
  by_cases h : k = v <;> simp [List.find?_cons, h]

theorem lookupD_none_iff {d : List (Nat × Nat)} {v : Nat} :
    lookupD d v = none ↔ ¬ v ∈ d.map Prod.fst := by
  unfold lookupD
  rw [Option.map_eq_none', List.find?_eq_none]
  constructor
  · intro h hv
    obtain ⟨e, he, hfst⟩ := List.mem_map.mp hv
    exact absurd (by simp [hfst] : (e.1 == v) = true) (h e he)
  · intro h e he hbeq
    exact h (List.mem_map.mpr ⟨e, he, by simpa using hbeq⟩)

end Cmux

namespace Cmux

theorem bumpBest_mono {pid cost : Nat} {b : Option (Nat × Nat)} {w c : Nat}
    (h : b = some (w, c)) :
    ∃ w' c', bumpBest pid cost b = some (w', c') ∧ c' ≤ c := by
  subst h
  unfold bumpBest
  dsimp only
  by_cases hlt : cost < c
  · exact ⟨pid, cost, by rw [if_pos hlt], Nat.le_of_lt hlt⟩
  · exact ⟨w, c, by rw [if_neg hlt], Nat.le_refl c⟩

theorem bumpBest_le_cost (pid cost : Nat) (b : Option (Nat × Nat)) :
    ∃ w' c', bumpBest pid cost b = some (w', c') ∧ c' ≤ cost := by
  cases b with
  | none => exact ⟨pid, cost, rfl, Nat.le_refl _⟩
  | some wc =>
    obtain ⟨w, c⟩ := wc
    unfold bumpBest
    dsimp only
    by_cases hlt : cost < c
    · exact ⟨pid, cost, by rw [if_pos hlt], Nat.le_refl _⟩
    · exact ⟨w, c, by rw [if_neg hlt], Nat.le_of_not_lt hlt⟩

theorem bumpBest_src {pid cost : Nat} {b : Option (Nat × Nat)} {w' c' : Nat}
    (h : bumpBest pid cost b = some (w', c')) :
    b = some (w', c') ∨ (w' = pid ∧ c' = cost) := by
  cases b with
  | none =>
    unfold bumpBest at h
    cases h
    exact Or.inr ⟨rfl, rfl⟩
  | some wc =>
    obtain ⟨w, c⟩ := wc
    unfold bumpBest at h
    dsimp only at h
    by_cases hlt : cost < c
    · rw [if_pos hlt] at h
      cases h
      exact Or.inr ⟨rfl, rfl⟩
    · rw [if_neg hlt] at h
      cases h
      exact Or.inl rfl

theorem updBest_mono {d : Nat} {oD : List (Nat × Nat)} {pid : Nat}
    {b : Option (Nat × Nat)} {w c : Nat} (h : b = some (w, c)) :
    ∃ w' c', updBest d oD pid b = some (w', c') ∧ c' ≤ c := by
  unfold updBest
  cases hod : lookupD oD pid with
  | none => exact ⟨w, c, h, Nat.le_refl _⟩
  | some od => exact bumpBest_mono h

theorem updBest_src {d : Nat} {oD : List (Nat × Nat)} {pid : Nat}
    {b : Option (Nat × Nat)} {w' c' : Nat} (h : updBest d oD pid b = some (w', c')) :
    b = some (w', c') ∨
    (w' = pid ∧ ∃ od, lookupD oD pid = some od ∧ c' = (d + 1) + od) := by
  unfold updBest at h
  cases hod : lookupD oD pid with
  | none =>
    rw [hod] at h
    exact Or.inl h
  | some od =>
    rw [hod] at h
    rcases bumpBest_src h with h | ⟨hw, hc⟩
    · exact Or.inl h
    · exact Or.inr ⟨hw, od, rfl, hc⟩

theorem updBest_hit {d : Nat} {oD : List (Nat × Nat)} {pid od : Nat}
    {b : Option (Nat × Nat)} (hod : lookupD oD pid = some od) :
    ∃ w' c', updBest d oD pid b = some (w', c') ∧ c' ≤ (d + 1) + od := by
  unfold updBest
  rw [hod]
  exact bumpBest_le_cost pid ((d + 1) + od) b

theorem insertKids_stable (d : Nat) (oD : List (Nat × Nat)) :
    ∀ (ps : List Nat) (q0 : List Nat) (d0 : List (Nat × Nat)) (b0 : Option (Nat × Nat))
      (v n : Nat), lookupD d0 v = some n →
      lookupD (insertKids d oD ps (q0, d0, b0)).2.1 v = some n := by
  intro ps
  induction ps with
  | nil =>
    intro q0 d0 b0 v n h
    simpa [insertKids] using h
  | cons pid ps ih =>
    intro q0 d0 b0 v n h
    by_cases hp : (lookupD d0 pid).isSome
    · rw [insertKids, if_pos hp]
      exact ih _ _ _ v n h
    · rw [insertKids, if_neg hp]
      have hne : pid ≠ v := by
        intro he
        subst he
        exact hp (by simp [h])
      exact ih _ _ _ v n (by rw [lookupD_cons, if_neg hne]; exact h)

theorem insertKids_src (d : Nat) (oD : List (Nat × Nat)) :
    ∀ (ps : List Nat) (q0 : List Nat) (d0 : List (Nat × Nat)) (b0 : Option (Nat × Nat))
      (v n : Nat), lookupD (insertKids d oD ps (q0, d0, b0)).2.1 v = some n →
      lookupD d0 v = some n ∨ (lookupD d0 v = none ∧ v ∈ ps ∧ n = d + 1) := by
  intro ps
  induction ps with
  | nil =>
    intro q0 d0 b0 v n h
    exact Or.inl (by simpa [insertKids] using h)
  | cons pid ps ih =>
    intro q0 d0 b0 v n h
    by_cases hp : (lookupD d0 pid).isSome
    · rw [insertKids, if_pos hp] at h
      rcases ih _ _ _ v n h with h' | ⟨h1, h2, h3⟩
      · exact Or.inl h'
      · exact Or.inr ⟨h1, List.mem_cons_of_mem _ h2, h3⟩
    · rw [insertKids, if_neg hp] at h
      rcases ih _ _ _ v n h with h' | ⟨h1, h2, h3⟩
      · rw [lookupD_cons] at h'
        by_cases hv : pid = v
        · subst hv
          rw [if_pos rfl] at h'
          cases h'
          exact Or.inr ⟨Option.not_isSome_iff_eq_none.mp hp, List.mem_cons_self _ _, rfl⟩
        · rw [if_neg hv] at h'
          exact Or.inl h'
      · rw [lookupD_cons] at h1
        by_cases hv : pid = v
        · subst hv
          rw [if_pos rfl] at h1
          cases h1
        · rw [if_neg hv] at h1
          exact Or.inr ⟨h1, List.mem_cons_of_mem _ h2, h3⟩

theorem insertKids_queue (d : Nat) (oD : List (Nat × Nat)) :
    ∀ (ps : List Nat) (q0 : List Nat) (d0 : List (Nat × Nat)) (b0 : Option (Nat × Nat)),
      ∃ kids, (insertKids d oD ps (q0, d0, b0)).1 = q0 ++ kids ∧
        (∀ k ∈ kids, lookupD d0 k = none ∧ k ∈ ps ∧
          lookupD (insertKids d oD ps (q0, d0, b0)).2.1 k = some (d + 1)) ∧
        (∀ v n, lookupD d0 v = none →
          lookupD (insertKids d oD ps (q0, d0, b0)).2.1 v = some n → v ∈ kids) := by
  intro ps
  induction ps with
  | nil =>
    intro q0 d0 b0
    refine ⟨[], by simp [insertKids], by simp, ?_⟩
    intro v n h1 h2
    rw [show (insertKids d oD [] (q0, d0, b0)).2.1 = d0 from rfl] at h2
    rw [h1] at h2
    cases h2
  | cons pid ps ih =>
    intro q0 d0 b0
    by_cases hp : (lookupD d0 pid).isSome
    · obtain ⟨kids, hq, hk, hcap⟩ := ih q0 d0 b0
      rw [insertKids, if_pos hp]
      refine ⟨kids, hq, ?_, ?_⟩
      · intro k hkk
        obtain ⟨h1, h2, h3⟩ := hk k hkk
        exact ⟨h1, List.mem_cons_of_mem _ h2, h3⟩
      · exact hcap
    · obtain ⟨kids, hq, hk, hcap⟩ := ih (q0 ++ [pid]) ((pid, d + 1) :: d0)
        (updBest d oD pid b0)
      rw [insertKids, if_neg hp]
      refine ⟨pid :: kids, ?_, ?_, ?_⟩
      · rw [hq]
        simp
      · intro k hkk
        rcases List.mem_cons.mp hkk with hkp | hkk'
        · subst hkp
          refine ⟨Option.not_isSome_iff_eq_none.mp hp, List.mem_cons_self _ _, ?_⟩
          exact insertKids_stable d oD ps _ _ _ k (d + 1)
            (by rw [lookupD_cons, if_pos rfl])
        · obtain ⟨h1, h2, h3⟩ := hk k hkk'
          rw [lookupD_cons] at h1
          by_cases hv : pid = k
          · rw [if_pos hv] at h1
            cases h1
          · rw [if_neg hv] at h1
            exact ⟨h1, List.mem_cons_of_mem _ h2, h3⟩
      · intro v n h1 h2
        by_cases hv : pid = v
        · subst hv
          exact List.mem_cons_self _ _
        · refine List.mem_cons_of_mem _ (hcap v n ?_ h2)
          rw [lookupD_cons, if_neg hv]
          exact h1

theorem insertKids_keys_nodup (d : Nat) (oD : List (Nat × Nat)) :
    ∀ (ps : List Nat) (q0 : List Nat) (d0 : List (Nat × Nat)) (b0 : Option (Nat × Nat)),
      (d0.map Prod.fst).Nodup →
      ((insertKids d oD ps (q0, d0, b0)).2.1.map Prod.fst).Nodup := by
  intro ps
  induction ps with
  | nil =>
    intro q0 d0 b0 h
    simpa [insertKids] using h
  | cons pid ps ih =>
    intro q0 d0 b0 h
    by_cases hp : (lookupD d0 pid).isSome
    · rw [insertKids, if_pos hp]
      exact ih _ _ _ h
    · rw [insertKids, if_neg hp]
      refine ih _ _ _ ?_
      simp only [List.map_cons]
      exact List.Pairwise.cons
        (fun v hv heq => (lookupD_none_iff.mp (Option.not_isSome_iff_eq_none.mp hp))
          (heq ▸ hv)) h

theorem insertKids_best_mono (d : Nat) (oD : List (Nat × Nat)) :
    ∀ (ps : List Nat) (q0 : List Nat) (d0 : List (Nat × Nat)) (b0 : Option (Nat × Nat))
      (w c : Nat), b0 = some (w, c) →
      ∃ w' c', (insertKids d oD ps (q0, d0, b0)).2.2 = some (w', c') ∧ c' ≤ c := by
  intro ps
  induction ps with
  | nil =>
    intro q0 d0 b0 w c h
    exact ⟨w, c, by simpa [insertKids] using h, Nat.le_refl _⟩
  | cons pid ps ih =>
    intro q0 d0 b0 w c h
    by_cases hp : (lookupD d0 pid).isSome
    · rw [insertKids, if_pos hp]
      exact ih _ _ _ w c h
    · rw [insertKids, if_neg hp]
      obtain ⟨w1, c1, hb1, hle1⟩ := @updBest_mono d oD pid _ _ _ h
      obtain ⟨w2, c2, hb2, hle2⟩ := ih _ _ _ w1 c1 hb1
      exact ⟨w2, c2, hb2, Nat.le_trans hle2 hle1⟩

theorem insertKids_best_src (d : Nat) (oD : List (Nat × Nat)) :
    ∀ (ps : List Nat) (q0 : List Nat) (d0 : List (Nat × Nat)) (b0 : Option (Nat × Nat))
      (w' c' : Nat), (insertKids d oD ps (q0, d0, b0)).2.2 = some (w', c') →
      b0 = some (w', c') ∨ (∃ od, lookupD oD w' = some od ∧ c' = (d + 1) + od ∧
        lookupD (insertKids d oD ps (q0, d0, b0)).2.1 w' = some (d + 1)) := by
  intro ps
  induction ps with
  | nil =>
    intro q0 d0 b0 w' c' h
    exact Or.inl (by simpa [insertKids] using h)
  | cons pid ps ih =>
    intro q0 d0 b0 w' c' h
    by_cases hp : (lookupD d0 pid).isSome
    · rw [insertKids, if_pos hp] at h ⊢
      exact ih _ _ _ w' c' h
    · rw [insertKids, if_neg hp] at h ⊢
      rcases ih _ _ _ w' c' h with h' | h'
      · rcases updBest_src h' with h'' | ⟨hw, od, hod, hc⟩
        · exact Or.inl h''
        · subst hw
          refine Or.inr ⟨od, hod, hc, ?_⟩
          exact insertKids_stable d oD ps _ _ _ w' (d + 1)
            (by rw [lookupD_cons, if_pos rfl])
      · exact Or.inr h'

theorem insertKids_meet (d : Nat) (oD : List (Nat × Nat)) :
    ∀ (ps : List Nat) (q0 : List Nat) (d0 : List (Nat × Nat)) (b0 : Option (Nat × Nat))
      (v od : Nat), v ∈ ps → lookupD d0 v = none → lookupD oD v = some od →
      ∃ w' c', (insertKids d oD ps (q0, d0, b0)).2.2 = some (w', c') ∧
        c' ≤ (d + 1) + od := by
  intro ps
  induction ps with
  | nil =>
    intro q0 d0 b0 v od hv
    cases hv
  | cons pid ps ih =>
    intro q0 d0 b0 v od hv hfresh hod
    by_cases hp : (lookupD d0 pid).isSome
    · rw [insertKids, if_pos hp]
      rcases List.mem_cons.mp hv with hvp | hv'
      · subst hvp
        rw [hfresh] at hp
        cases hp
      · exact ih _ _ _ v od hv' hfresh hod
    · rw [insertKids, if_neg hp]
      by_cases hvp : v = pid
      · subst hvp
        obtain ⟨w1, c1, hb1, hle1⟩ := updBest_hit (d := d) (b := b0) hod
        obtain ⟨w2, c2, hb2, hle2⟩ := insertKids_best_mono d oD ps _ _ _ w1 c1 hb1
        exact ⟨w2, c2, hb2, Nat.le_trans hle2 hle1⟩
      · rcases List.mem_cons.mp hv with hvp' | hv'
        · exact absurd hvp' hvp
        · refine ih _ _ _ v od hv' ?_ hod
          rw [lookupD_cons, if_neg (fun h => hvp h.symm)]
          exact hfresh

end Cmux

namespace Cmux

/-- Commits of `N` not yet discovered by a map (for the termination
measure of the BFS loop). -/
def remaining (N : List Nat) (d : List (Nat × Nat)) : Nat :=
  N.countP (fun v => (lookupD d v).isNone)

theorem remaining_insert_le (N : List Nat) (d0 : List (Nat × Nat)) (pid n : Nat) :
    remaining N ((pid, n) :: d0) ≤ remaining N d0 := by
  unfold remaining
  refine List.countP_mono_left ?_
  intro v _ hv
  rw [lookupD_cons] at hv
  by_cases h : pid = v
  · rw [if_pos h] at hv
    cases hv
  · rw [if_neg h] at hv
    exact hv

theorem remaining_insert_fresh {N : List Nat} {d0 : List (Nat × Nat)} {pid : Nat} (n : Nat)
    (hmem : pid ∈ N) (hfresh : lookupD d0 pid = none) :
    remaining N ((pid, n) :: d0) + 1 ≤ remaining N d0 := by
  unfold remaining
  induction N with
  | nil => cases hmem
  | cons x xs ih =>
    have hmono : List.countP (fun v => (lookupD ((pid, n) :: d0) v).isNone) xs ≤
        List.countP (fun v => (lookupD d0 v).isNone) xs := by
      refine List.countP_mono_left ?_
      intro v _ hv
      rw [lookupD_cons] at hv
      by_cases h : pid = v
      · rw [if_pos h] at hv
        cases hv
      · rw [if_neg h] at hv
        exact hv
    by_cases hx : x = pid
    · subst hx
      have e1 : List.countP (fun v => (lookupD ((x, n) :: d0) v).isNone) (x :: xs) =
          List.countP (fun v => (lookupD ((x, n) :: d0) v).isNone) xs := by
        rw [List.countP_cons]
        have hA : (lookupD ((x, n) :: d0) x).isNone = false := by
          rw [lookupD_cons, if_pos rfl]
          rfl
        rw [hA]
        simp
      have e2 : List.countP (fun v => (lookupD d0 v).isNone) (x :: xs) =
          List.countP (fun v => (lookupD d0 v).isNone) xs + 1 := by
        rw [List.countP_cons]
        have hB : (lookupD d0 x).isNone = true := by
          rw [hfresh]
          rfl
        rw [hB]
        simp
      rw [e1, e2]
      omega
    · have hmem' : pid ∈ xs := by
        rcases List.mem_cons.mp hmem with h | h
        · exact absurd h.symm hx
        · exact h
      have hx' : lookupD ((pid, n) :: d0) x = lookupD d0 x := by
        rw [lookupD_cons, if_neg (fun h => hx h.symm)]
      have e1 : List.countP (fun v => (lookupD ((pid, n) :: d0) v).isNone) (x :: xs) =
          List.countP (fun v => (lookupD ((pid, n) :: d0) v).isNone) xs +
            (if (lookupD d0 x).isNone then 1 else 0) := by
        rw [List.countP_cons, hx']
      have e2 : List.countP (fun v => (lookupD d0 v).isNone) (x :: xs) =
          List.countP (fun v => (lookupD d0 v).isNone) xs +
            (if (lookupD d0 x).isNone then 1 else 0) := by
        rw [List.countP_cons]
      rw [e1, e2]
      have := ih hmem'
      omega

theorem insertKids_measure (d : Nat) (oD : List (Nat × Nat)) (N : List Nat) :
    ∀ (ps : List Nat) (q0 : List Nat) (d0 : List (Nat × Nat)) (b0 : Option (Nat × Nat)),
      (∀ p ∈ ps, p ∈ N) →
      2 * remaining N (insertKids d oD ps (q0, d0, b0)).2.1 +
        (insertKids d oD ps (q0, d0, b0)).1.length ≤
      2 * remaining N d0 + q0.length := by
  intro ps
  induction ps with
  | nil =>
    intro q0 d0 b0 _
    simp [insertKids]
  | cons pid ps ih =>
    intro q0 d0 b0 hps
    by_cases hp : (lookupD d0 pid).isSome
    · rw [insertKids, if_pos hp]
      exact ih _ _ _ (fun p h => hps p (List.mem_cons_of_mem _ h))
    · rw [insertKids, if_neg hp]
      have h1 := ih (q0 ++ [pid]) ((pid, d + 1) :: d0) (updBest d oD pid b0)
        (fun p h => hps p (List.mem_cons_of_mem _ h))
      have h2 := @remaining_insert_fresh N d0 pid (d + 1)
        (hps pid (List.mem_cons_self _ _)) (Option.not_isSome_iff_eq_none.mp hp)
      rw [List.length_append] at h1
      simp only [List.length_cons, List.length_nil] at h1
      omega

end Cmux

namespace Cmux

theorem insertKids_measure1 (d : Nat) (oD : List (Nat × Nat)) (N : List Nat) :
    ∀ (ps : List Nat) (q0 : List Nat) (d0 : List (Nat × Nat)) (b0 : Option (Nat × Nat)),
      (∀ p ∈ ps, p ∈ N) →
      remaining N (insertKids d oD ps (q0, d0, b0)).2.1 +
        (insertKids d oD ps (q0, d0, b0)).1.length ≤
      remaining N d0 + q0.length := by
  intro ps
  induction ps with
  | nil =>
    intro q0 d0 b0 _
    simp [insertKids]
  | cons pid ps ih =>
    intro q0 d0 b0 hps
    by_cases hp : (lookupD d0 pid).isSome
    · rw [insertKids, if_pos hp]
      exact ih _ _ _ (fun p h => hps p (List.mem_cons_of_mem _ h))
    · rw [insertKids, if_neg hp]
      have h1 := ih (q0 ++ [pid]) ((pid, d + 1) :: d0) (updBest d oD pid b0)
        (fun p h => hps p (List.mem_cons_of_mem _ h))
      have h2 := @remaining_insert_fresh N d0 pid (d + 1)
        (hps pid (List.mem_cons_self _ _)) (Option.not_isSome_iff_eq_none.mp hp)
      rw [List.length_append] at h1
      simp only [List.length_cons, List.length_nil] at h1
      omega

theorem insertKids_covers (d : Nat) (oD : List (Nat × Nat)) :
    ∀ (ps : List Nat) (q0 : List Nat) (d0 : List (Nat × Nat)) (b0 : Option (Nat × Nat))
      (p : Nat), p ∈ ps → lookupD d0 p = none →
      lookupD (insertKids d oD ps (q0, d0, b0)).2.1 p = some (d + 1) := by
  intro ps
  induction ps with
  | nil =>
    intro q0 d0 b0 p hp
    cases hp
  | cons pid ps ih =>
    intro q0 d0 b0 p hp hfresh
    by_cases hs : (lookupD d0 pid).isSome
    · rw [insertKids, if_pos hs]
      rcases List.mem_cons.mp hp with hpp | hp'
      · subst hpp
        rw [hfresh] at hs
        cases hs
      · exact ih _ _ _ p hp' hfresh
    · rw [insertKids, if_neg hs]
      by_cases hpp : p = pid
      · subst hpp
        exact insertKids_stable d oD ps _ _ _ p (d + 1) (by rw [lookupD_cons, if_pos rfl])
      · rcases List.mem_cons.mp hp with hpp' | hp'
        · exact absurd hpp' hpp
        · refine ih _ _ _ p hp' ?_
          rw [lookupD_cons, if_neg (fun h => hpp h.symm)]
          exact hfresh

/-- The cost component of `best`. -/
def costOf : Option (Nat × Nat) → Option Nat
  | none => none
  | some wc => some wc.2

/-- The per-side invariant of the bidirectional BFS: recorded depths are
real path lengths from the side's root `r`; the root is recorded at 0;
keys are unique and live in `N`; queue members are recorded; recorded
depths are nondecreasing along the queue and span at most two layers;
a node no longer queued either has all parents recorded within one extra
step or was dropped by the early stop (its depth already exceeds the
best cost); processed nodes are no deeper than pending ones. -/
structure SideInv (g : Nat → List Nat) (N : List Nat) (r : Nat) (q : List Nat)
    (d : List (Nat × Nat)) (bc : Option Nat) : Prop where
  sound : ∀ v n, lookupD d v = some n → PathLen g r v n
  rootMem : lookupD d r = some 0
  keysNodup : (d.map Prod.fst).Nodup
  keysN : ∀ v n, lookupD d v = some n → v ∈ N
  qSub : ∀ v ∈ q, (lookupD d v).isSome
  sorted : q.Pairwise (fun u v => ∀ nu nv, lookupD d u = some nu →
    lookupD d v = some nv → nu ≤ nv)
  window : ∀ u ∈ q, ∀ v ∈ q, ∀ nu nv, lookupD d u = some nu →
    lookupD d v = some nv → nv ≤ nu + 1
  procClosed : ∀ v n, lookupD d v = some n → ¬ v ∈ q →
    (∀ p ∈ g v, ∃ np, np ≤ n + 1 ∧ lookupD d p = some np) ∨
    (∃ c, bc = some c ∧ c < n)
  procLe : ∀ v n, lookupD d v = some n → ¬ v ∈ q →
    ∀ u ∈ q, ∀ nu, lookupD d u = some nu → n ≤ nu

theorem SideInv_mono_best {g : Nat → List Nat} {N : List Nat} {r : Nat} {q : List Nat}
    {d : List (Nat × Nat)} {bc bc' : Option Nat}
    (h : SideInv g N r q d bc)
    (hm : ∀ c, bc = some c → ∃ c', bc' = some c' ∧ c' ≤ c) :
    SideInv g N r q d bc' := by
  refine ⟨h.sound, h.rootMem, h.keysNodup, h.keysN, h.qSub, h.sorted, h.window, ?_, h.procLe⟩
  intro v n hv hq
  rcases h.procClosed v n hv hq with hl | ⟨c, hc, hlt⟩
  · exact Or.inl hl
  · obtain ⟨c', hc', hle⟩ := hm c hc
    exact Or.inr ⟨c', hc', Nat.lt_of_le_of_lt hle hlt⟩

end Cmux

namespace Cmux

theorem expand_branch_spec
    (g : Nat → List Nat) (N : List Nat) (r : Nat)
    (cur : Nat) (rest : List Nat) (thisD oD : List (Nat × Nat)) (b0 : Option (Nat × Nat))
    (dcur : Nat) (q' : List Nat) (thisD' : List (Nat × Nat)) (best' : Option (Nat × Nat))
    (hK : insertKids dcur oD (g cur) (rest, thisD, b0) = (q', thisD', best'))
    (hcl : ∀ v ∈ N, ∀ p ∈ g v, p ∈ N)
    (hS : SideInv g N r (cur :: rest) thisD (costOf b0))
    (hbestOk : ∀ v c, b0 = some (v, c) →
      ∃ pa pb, lookupD thisD v = some pa ∧ lookupD oD v = some pb ∧ c = pa + pb)
    (hmeet : ∀ v pa pb, lookupD thisD v = some pa → lookupD oD v = some pb →
      ∃ w c, b0 = some (w, c) ∧ c ≤ pa + pb)
    (hcur : lookupD thisD cur = some dcur) :
    SideInv g N r q' thisD' (costOf best') ∧
    (∀ w c, b0 = some (w, c) → ∃ w' c', best' = some (w', c') ∧ c' ≤ c) ∧
    (∀ v c, best' = some (v, c) →
      ∃ pa pb, lookupD thisD' v = some pa ∧ lookupD oD v = some pb ∧ c = pa + pb) ∧
    (∀ v pa pb, lookupD thisD' v = some pa → lookupD oD v = some pb →
      ∃ w c, best' = some (w, c) ∧ c ≤ pa + pb) ∧
    (∀ v n, lookupD thisD v = some n → lookupD thisD' v = some n) ∧
    (remaining N thisD' + q'.length + 1 ≤ remaining N thisD + (cur :: rest).length) := by
  have stable : ∀ v n, lookupD thisD v = some n → lookupD thisD' v = some n := by
    intro v n h
    have h' := insertKids_stable dcur oD (g cur) rest thisD b0 v n h
    rw [hK] at h'
    exact h'
  have src : ∀ v n, lookupD thisD' v = some n →
      lookupD thisD v = some n ∨ (lookupD thisD v = none ∧ v ∈ g cur ∧ n = dcur + 1) := by
    intro v n h
    have h' := insertKids_src dcur oD (g cur) rest thisD b0 v n (by rw [hK]; exact h)
    exact h'
  obtain ⟨kids, hq0, hkids0, hcap0⟩ := insertKids_queue dcur oD (g cur) rest thisD b0
  rw [hK] at hq0 hkids0 hcap0
  have hq' : q' = rest ++ kids := hq0
  have hkids : ∀ k ∈ kids, lookupD thisD k = none ∧ k ∈ g cur ∧
      lookupD thisD' k = some (dcur + 1) := hkids0
  have hcap : ∀ v n, lookupD thisD v = none → lookupD thisD' v = some n → v ∈ kids := hcap0
  have bmono : ∀ w c, b0 = some (w, c) → ∃ w' c', best' = some (w', c') ∧ c' ≤ c := by
    intro w c h
    have h' := insertKids_best_mono dcur oD (g cur) rest thisD b0 w c h
    rw [hK] at h'
    exact h'
  have bcostmono : ∀ c, costOf b0 = some c → ∃ c', costOf best' = some c' ∧ c' ≤ c := by
    intro c h
    cases hb : b0 with
    | none => rw [hb] at h; cases h
    | some wc =>
      rw [hb] at h
      obtain ⟨w', c', hb', hle⟩ := bmono wc.1 wc.2 (by rw [hb])
      refine ⟨c', by rw [hb']; rfl, ?_⟩
      cases h
      exact hle
  have curN : cur ∈ N := hS.keysN cur dcur hcur
  have kidsN : ∀ p ∈ g cur, p ∈ N := fun p hp => hcl cur curN p hp
  -- translation helpers for queue members of `rest`
  have restLookup : ∀ u ∈ rest, ∀ nu, lookupD thisD' u = some nu → lookupD thisD u = some nu := by
    intro u hu nu h
    obtain ⟨nu0, hnu0⟩ := Option.isSome_iff_exists.mp (hS.qSub u (List.mem_cons_of_mem _ hu))
    have := stable u nu0 hnu0
    rw [this] at h
    cases h
    exact hnu0
  have headRel : ∀ u ∈ rest, ∀ nu, lookupD thisD u = some nu → dcur ≤ nu := by
    intro u hu nu hnu
    exact (List.pairwise_cons.mp hS.sorted).1 u hu dcur nu hcur hnu
  have windowCur : ∀ u ∈ cur :: rest, ∀ nu, lookupD thisD u = some nu → nu ≤ dcur + 1 := by
    intro u hu nu hnu
    exact hS.window cur (List.mem_cons_self _ _) u hu dcur nu hcur hnu
  refine ⟨?_, bmono, ?_, ?_, stable, ?_⟩
  · -- SideInv for the expanded side
    refine ⟨?_, ?_, ?_, ?_, ?_, ?_, ?_, ?_, ?_⟩
    · -- sound
      intro v n h
      rcases src v n h with h' | ⟨-, hv, hn⟩
      · exact hS.sound v n h'
      · subst hn
        exact PathLen.step (hS.sound cur dcur hcur) hv
    · exact stable r 0 hS.rootMem
    · have h' := insertKids_keys_nodup dcur oD (g cur) rest thisD b0 hS.keysNodup
      rw [hK] at h'
      exact h'
    · intro v n h
      rcases src v n h with h' | ⟨-, hv, -⟩
      · exact hS.keysN v n h'
      · exact kidsN v hv
    · intro v hv
      rw [hq'] at hv
      rcases List.mem_append.mp hv with hv | hv
      · obtain ⟨n0, hn0⟩ := Option.isSome_iff_exists.mp (hS.qSub v (List.mem_cons_of_mem _ hv))
        rw [stable v n0 hn0]
        rfl
      · rw [(hkids v hv).2.2]
        rfl
    · -- sorted
      rw [hq']
      rw [List.pairwise_append]
      refine ⟨?_, ?_, ?_⟩
      · refine List.Pairwise.imp_of_mem ?_ (List.pairwise_cons.mp hS.sorted).2
        intro u v hu hv huv nu nv hnu' hnv'
        exact huv nu nv (restLookup u hu nu hnu') (restLookup v hv nv hnv')
      · refine List.pairwise_of_forall_mem_list ?_
        intro u hu v hv nu nv hnu' hnv'
        rw [(hkids u hu).2.2] at hnu'
        rw [(hkids v hv).2.2] at hnv'
        cases hnu'
        cases hnv'
        exact Nat.le_refl _
      · intro u hu v hv nu nv hnu' hnv'
        have hnu := restLookup u hu nu hnu'
        rw [(hkids v hv).2.2] at hnv'
        cases hnv'
        exact windowCur u (List.mem_cons_of_mem _ hu) nu hnu
    · -- window
      intro u hu v hv nu nv hnu' hnv'
      rw [hq'] at hu hv
      rcases List.mem_append.mp hu with hu | hu <;> rcases List.mem_append.mp hv with hv | hv
      · exact hS.window u (List.mem_cons_of_mem _ hu) v (List.mem_cons_of_mem _ hv)
          nu nv (restLookup u hu nu hnu') (restLookup v hv nv hnv')
      · rw [(hkids v hv).2.2] at hnv'
        cases hnv'
        have := headRel u hu nu (restLookup u hu nu hnu')
        omega
      · rw [(hkids u hu).2.2] at hnu'
        cases hnu'
        have := windowCur v (List.mem_cons_of_mem _ hv) nv (restLookup v hv nv hnv')
        omega
      · rw [(hkids u hu).2.2] at hnu'
        rw [(hkids v hv).2.2] at hnv'
        cases hnu'
        cases hnv'
        omega
    · -- procClosed
      intro v n h hvq
      rw [hq'] at hvq
      have hvrest : ¬ v ∈ rest := fun hr => hvq (List.mem_append.mpr (Or.inl hr))
      have hvkids : ¬ v ∈ kids := fun hk => hvq (List.mem_append.mpr (Or.inr hk))
      rcases src v n h with h' | ⟨hfresh, -, -⟩
      · by_cases hvcur : v = cur
        · have hveq : lookupD thisD v = some dcur := by rw [hvcur]; exact hcur
          have hn : n = dcur := by
            rw [hveq] at h'
            exact (Option.some.inj h').symm
          refine Or.inl ?_
          intro p hp
          have hpcur : p ∈ g cur := by rw [← hvcur]; exact hp
          cases hpl : lookupD thisD p with
          | some np =>
            refine ⟨np, ?_, stable p np hpl⟩
            by_cases hpq : p ∈ cur :: rest
            · have := windowCur p hpq np hpl
              omega
            · have := hS.procLe p np hpl hpq cur (List.mem_cons_self _ _) dcur hcur
              omega
          | none =>
            refine ⟨dcur + 1, by omega, ?_⟩
            have h'' := insertKids_covers dcur oD (g cur) rest thisD b0 p hpcur hpl
            rw [hK] at h''
            exact h''
        · have hvq0 : ¬ v ∈ cur :: rest := by
            intro hv0
            rcases List.mem_cons.mp hv0 with h0 | h0
            · exact hvcur h0
            · exact hvrest h0
          rcases hS.procClosed v n h' hvq0 with hl | ⟨c, hc, hlt⟩
          · refine Or.inl ?_
            intro p hp
            obtain ⟨np, hle, hpl⟩ := hl p hp
            exact ⟨np, hle, stable p np hpl⟩
          · obtain ⟨c', hc', hle⟩ := bcostmono c hc
            exact Or.inr ⟨c', hc', Nat.lt_of_le_of_lt hle hlt⟩
      · exact absurd (hcap v n hfresh h) hvkids
    · -- procLe
      intro v n h hvq
      rw [hq'] at hvq
      have hvrest : ¬ v ∈ rest := fun hr => hvq (List.mem_append.mpr (Or.inl hr))
      have hvkids : ¬ v ∈ kids := fun hk => hvq (List.mem_append.mpr (Or.inr hk))
      intro u hu nu hnu'
      rw [hq'] at hu
      rcases src v n h with h' | ⟨hfresh, -, -⟩
      · by_cases hvcur : v = cur
        · have hveq : lookupD thisD v = some dcur := by rw [hvcur]; exact hcur
          have hn : n = dcur := by
            rw [hveq] at h'
            exact (Option.some.inj h').symm
          rcases List.mem_append.mp hu with hu | hu
          · have := headRel u hu nu (restLookup u hu nu hnu')
            omega
          · rw [(hkids u hu).2.2] at hnu'
            have := Option.some.inj hnu'
            omega
        · have hvq0 : ¬ v ∈ cur :: rest := by
            intro hv0
            rcases List.mem_cons.mp hv0 with h0 | h0
            · exact hvcur h0
            · exact hvrest h0
          rcases List.mem_append.mp hu with hu | hu
          · exact hS.procLe v n h' hvq0 u (List.mem_cons_of_mem _ hu) nu
              (restLookup u hu nu hnu')
          · rw [(hkids u hu).2.2] at hnu'
            cases hnu'
            have := hS.procLe v n h' hvq0 cur (List.mem_cons_self _ _) dcur hcur
            omega
      · exact absurd (hcap v n hfresh h) hvkids
  · -- bestOk for the new best
    intro v c h
    have h' := insertKids_best_src dcur oD (g cur) rest thisD b0 v c (by rw [hK]; exact h)
    rcases h' with h' | ⟨od, hod, hcost, hl⟩
    · obtain ⟨pa, pb, hpa, hpb, hc⟩ := hbestOk v c h'
      exact ⟨pa, pb, stable v pa hpa, hpb, hc⟩
    · rw [hK] at hl
      exact ⟨dcur + 1, od, hl, hod, hcost⟩
  · -- meet for the new map
    intro v pa pb hpa hpb
    rcases src v pa hpa with h' | ⟨hfresh, hv, hn⟩
    · obtain ⟨w, c, hb, hle⟩ := hmeet v pa pb h' hpb
      obtain ⟨w', c', hb', hle'⟩ := bmono w c hb
      exact ⟨w', c', hb', Nat.le_trans hle' hle⟩
    · subst hn
      have h' := insertKids_meet dcur oD (g cur) rest thisD b0 v pb hv hfresh hpb
      rw [hK] at h'
      obtain ⟨w', c', hb', hle'⟩ := h'
      exact ⟨w', c', hb', hle'⟩
  · -- measure: one pop, net decrease
    have h' := insertKids_measure1 dcur oD N (g cur) rest thisD b0 kidsN
    rw [hK] at h'
    dsimp only at h'
    simp only [List.length_cons]
    omega

end Cmux

namespace Cmux

theorem SideInv_prune {g : Nat → List Nat} {N : List Nat} {r cur : Nat} {rest : List Nat}
    {thisD : List (Nat × Nat)} {bc : Option Nat} {dcur c : Nat}
    (hS : SideInv g N r (cur :: rest) thisD bc)
    (hcur : lookupD thisD cur = some dcur)
    (hc : bc = some c) (hlt : c < dcur) :
    SideInv g N r rest thisD bc := by
  refine ⟨hS.sound, hS.rootMem, hS.keysNodup, hS.keysN, ?_, ?_, ?_, ?_, ?_⟩
  · intro v hv
    exact hS.qSub v (List.mem_cons_of_mem _ hv)
  · exact (List.pairwise_cons.mp hS.sorted).2
  · intro u hu v hv nu nv hnu hnv
    exact hS.window u (List.mem_cons_of_mem _ hu) v (List.mem_cons_of_mem _ hv) nu nv hnu hnv
  · intro v n hvn hvq
    by_cases hvcur : v = cur
    · have hn : n = dcur := by
        rw [hvcur, hcur] at hvn
        exact (Option.some.inj hvn).symm
      exact Or.inr ⟨c, hc, by omega⟩
    · have hvq' : ¬ v ∈ cur :: rest := fun h0 => (List.mem_cons.mp h0).elim hvcur hvq
      exact hS.procClosed v n hvn hvq'
  · intro v n hvn hvq u hu nu hnu
    by_cases hvcur : v = cur
    · have hn : n = dcur := by
        rw [hvcur, hcur] at hvn
        exact (Option.some.inj hvn).symm
      have := (List.pairwise_cons.mp hS.sorted).1 u hu dcur nu hcur hnu
      omega
    · have hvq' : ¬ v ∈ cur :: rest := fun h0 => (List.mem_cons.mp h0).elim hvcur hvq
      exact hS.procLe v n hvn hvq' u (List.mem_cons_of_mem _ hu) nu hnu

theorem expandCore_spec
    (g : Nat → List Nat) (N : List Nat) (r : Nat)
    (q : List Nat) (thisD oD : List (Nat × Nat)) (b0 : Option (Nat × Nat))
    (prog : Bool) (q' : List Nat) (thisD' : List (Nat × Nat)) (best' : Option (Nat × Nat))
    (hE : expandCore g q thisD oD b0 = (prog, q', thisD', best'))
    (hcl : ∀ v ∈ N, ∀ p ∈ g v, p ∈ N)
    (hS : SideInv g N r q thisD (costOf b0))
    (hbestOk : ∀ v c, b0 = some (v, c) →
      ∃ pa pb, lookupD thisD v = some pa ∧ lookupD oD v = some pb ∧ c = pa + pb)
    (hmeet : ∀ v pa pb, lookupD thisD v = some pa → lookupD oD v = some pb →
      ∃ w c, b0 = some (w, c) ∧ c ≤ pa + pb) :
    SideInv g N r q' thisD' (costOf best') ∧
    (∀ w c, b0 = some (w, c) → ∃ w' c', best' = some (w', c') ∧ c' ≤ c) ∧
    (∀ v c, best' = some (v, c) →
      ∃ pa pb, lookupD thisD' v = some pa ∧ lookupD oD v = some pb ∧ c = pa + pb) ∧
    (∀ v pa pb, lookupD thisD' v = some pa → lookupD oD v = some pb →
      ∃ w c, best' = some (w, c) ∧ c ≤ pa + pb) ∧
    (∀ v n, lookupD thisD v = some n → lookupD thisD' v = some n) ∧
    (remaining N thisD' + q'.length ≤ remaining N thisD + q.length) ∧
    (prog = true → remaining N thisD' + q'.length + 1 ≤ remaining N thisD + q.length) ∧
    (prog = false → thisD' = thisD ∧ best' = b0 ∧
      (q' = [] ∨ ∃ w c, b0 = some (w, c) ∧
        ∀ u ∈ q', ∀ nu, lookupD thisD u = some nu → c < nu)) := by
  cases q with
  | nil =>
    rw [expandCore] at hE
    simp only [Prod.mk.injEq] at hE
    obtain ⟨hp, hq, hd, hb⟩ := hE
    subst hp
    subst hq
    subst hd
    subst hb
    refine ⟨hS, ?_, hbestOk, hmeet, fun v n h => h, ?_, ?_, ?_⟩
    · intro w c h
      exact ⟨w, c, h, Nat.le_refl _⟩
    · simp
    · intro h
      cases h
    · intro _
      exact ⟨rfl, rfl, Or.inl rfl⟩
  | cons cur rest =>
    obtain ⟨dcur, hdcur⟩ := Option.isSome_iff_exists.mp (hS.qSub cur (List.mem_cons_self _ _))
    rw [expandCore.eq_def] at hE
    dsimp only at hE
    rw [hdcur] at hE
    simp only [Option.getD_some] at hE
    cases b0 with
    | none =>
      dsimp only at hE
      injection hE with hp hK
      obtain ⟨hSI, hbm, hbo, hme, hst, hms⟩ :=
        expand_branch_spec g N r cur rest thisD oD none dcur q' thisD' best' hK
          hcl hS hbestOk hmeet hdcur
      refine ⟨hSI, hbm, hbo, hme, hst, ?_, ?_, ?_⟩
      · simp only [List.length_cons] at hms ⊢
        omega
      · intro _
        exact hms
      · intro hpf
        rw [← hp] at hpf
        exact absurd hpf (by decide)
    | some wc =>
      obtain ⟨w, bc⟩ := wc
      dsimp only at hE
      by_cases hbc : bc < dcur
      · rw [if_pos hbc] at hE
        injection hE with hp h2
        injection h2 with hq h3
        injection h3 with hd hb
        subst hq
        subst hd
        subst hb
        refine ⟨?_, ?_, hbestOk, hmeet, fun v n h => h, ?_, ?_, ?_⟩
        · exact SideInv_prune hS hdcur rfl hbc
        · intro w0 c0 h
          exact ⟨w0, c0, h, Nat.le_refl _⟩
        · simp only [List.length_cons]
          omega
        · intro hpt
          rw [← hp] at hpt
          exact absurd hpt (by decide)
        · intro _
          refine ⟨rfl, rfl, Or.inr ⟨w, bc, rfl, ?_⟩⟩
          intro u hu nu hnu
          have := (List.pairwise_cons.mp hS.sorted).1 u hu dcur nu hdcur hnu
          omega
      · rw [if_neg hbc] at hE
        injection hE with hp hK
        obtain ⟨hSI, hbm, hbo, hme, hst, hms⟩ :=
          expand_branch_spec g N r cur rest thisD oD (some (w, bc)) dcur q' thisD' best' hK
            hcl hS hbestOk hmeet hdcur
        refine ⟨hSI, hbm, hbo, hme, hst, ?_, ?_, ?_⟩
        · simp only [List.length_cons] at hms ⊢
          omega
        · intro _
          exact hms
        · intro hpf
          rw [← hp] at hpf
          exact absurd hpf (by decide)

end Cmux

namespace Cmux

/-- A side of the search is exhausted for optimality purposes: its queue
is empty, or every still-pending node is already strictly deeper than
the recorded best cost (the early stop fired or is about to fire on all
of them). -/
def deepSide (q : List Nat) (d : List (Nat × Nat)) (best : Option (Nat × Nat)) : Prop :=
  q = [] ∨ ∃ w c, best = some (w, c) ∧ ∀ u ∈ q, ∀ nu, lookupD d u = some nu → c < nu

/-- The joint invariant of the bidirectional BFS state: each side
satisfies its `SideInv` against the shared best cost; a recorded best is
a node recorded on both sides with cost the sum of its two depths; and
any node recorded on both sides bounds the best cost. -/
structure BfsInv (g : Nat → List Nat) (N : List Nat) (a b : Nat) (s : BfsState) : Prop where
  sa : SideInv g N a s.qa s.da (costOf s.best)
  sb : SideInv g N b s.qb s.db (costOf s.best)
  bestOk : ∀ v c, s.best = some (v, c) →
    ∃ pa pb, lookupD s.da v = some pa ∧ lookupD s.db v = some pb ∧ c = pa + pb
  meet : ∀ v pa pb, lookupD s.da v = some pa → lookupD s.db v = some pb →
    ∃ w c, s.best = some (w, c) ∧ c ≤ pa + pb

theorem stepSide_spec
    (g : Nat → List Nat) (N : List Nat) (a b : Nat) (fromA : Bool) (s : BfsState)
    (prog : Bool) (s' : BfsState)
    (hE : stepSide g fromA s = (prog, s'))
    (hcl : ∀ v ∈ N, ∀ p ∈ g v, p ∈ N)
    (hI : BfsInv g N a b s) :
    BfsInv g N a b s' ∧
    (remaining N s'.da + remaining N s'.db + s'.qa.length + s'.qb.length ≤
      remaining N s.da + remaining N s.db + s.qa.length + s.qb.length) ∧
    (prog = true →
      remaining N s'.da + remaining N s'.db + s'.qa.length + s'.qb.length + 1 ≤
      remaining N s.da + remaining N s.db + s.qa.length + s.qb.length) ∧
    (prog = false → s'.da = s.da ∧ s'.db = s.db ∧ s'.best = s.best ∧
      (fromA = true → s'.qb = s.qb ∧ deepSide s'.qa s'.da s'.best) ∧
      (fromA = false → s'.qa = s.qa ∧ deepSide s'.qb s'.db s'.best)) := by
  cases fromA with
  | true =>
    rcases h4 : expandCore g s.qa s.da s.db s.best with ⟨p0, q0, d0, bb⟩
    simp only [stepSide] at hE
    rw [h4] at hE
    dsimp only at hE
    injection hE with hp hs
    obtain ⟨hSI, hbm, hbo, hme, hst, hm6, hm7, hm8⟩ :=
      expandCore_spec g N a s.qa s.da s.db s.best p0 q0 d0 bb h4 hcl hI.sa hI.bestOk hI.meet
    have costmono : ∀ c, costOf s.best = some c → ∃ c', costOf bb = some c' ∧ c' ≤ c := by
      intro c h
      cases hb0 : s.best with
      | none =>
        rw [hb0] at h
        cases h
      | some wc =>
        rw [hb0] at h
        simp only [costOf] at h
        obtain ⟨w', c', hbb, hle⟩ := hbm wc.1 wc.2 (by rw [hb0])
        refine ⟨c', by rw [hbb]; rfl, ?_⟩
        cases h
        exact hle
    subst hs
    subst hp
    refine ⟨⟨hSI, SideInv_mono_best hI.sb costmono, hbo, hme⟩, ?_, ?_, ?_⟩
    · dsimp only
      omega
    · intro hpt
      have := hm7 hpt
      dsimp only
      omega
    · intro hpf
      obtain ⟨hd, hb0, hdeep⟩ := hm8 hpf
      subst hd
      subst hb0
      refine ⟨rfl, rfl, rfl, ?_, ?_⟩
      · intro _
        exact ⟨rfl, hdeep⟩
      · intro h
        cases h
  | false =>
    rcases h4 : expandCore g s.qb s.db s.da s.best with ⟨p0, q0, d0, bb⟩
    simp only [stepSide] at hE
    rw [h4] at hE
    dsimp only at hE
    injection hE with hp hs
    have hbOk' : ∀ v c, s.best = some (v, c) →
        ∃ pa pb, lookupD s.db v = some pa ∧ lookupD s.da v = some pb ∧ c = pa + pb := by
      intro v c h
      obtain ⟨pa, pb, h1, h2, h3⟩ := hI.bestOk v c h
      exact ⟨pb, pa, h2, h1, by omega⟩
    have hmeet' : ∀ v pa pb, lookupD s.db v = some pa → lookupD s.da v = some pb →
        ∃ w c, s.best = some (w, c) ∧ c ≤ pa + pb := by
      intro v pa pb h1 h2
      obtain ⟨w, c, hb0, hle⟩ := hI.meet v pb pa h2 h1
      exact ⟨w, c, hb0, by omega⟩
    obtain ⟨hSI, hbm, hbo, hme, hst, hm6, hm7, hm8⟩ :=
      expandCore_spec g N b s.qb s.db s.da s.best p0 q0 d0 bb h4 hcl hI.sb hbOk' hmeet'
    have costmono : ∀ c, costOf s.best = some c → ∃ c', costOf bb = some c' ∧ c' ≤ c := by
      intro c h
      cases hb0 : s.best with
      | none =>
        rw [hb0] at h
        cases h
      | some wc =>
        rw [hb0] at h
        simp only [costOf] at h
        obtain ⟨w', c', hbb, hle⟩ := hbm wc.1 wc.2 (by rw [hb0])
        refine ⟨c', by rw [hbb]; rfl, ?_⟩
        cases h
        exact hle
    subst hs
    subst hp
    refine ⟨⟨SideInv_mono_best hI.sa costmono, hSI, ?_, ?_⟩, ?_, ?_, ?_⟩
    · intro v c h
      obtain ⟨pa, pb, h1, h2, h3⟩ := hbo v c h
      exact ⟨pb, pa, h2, h1, by omega⟩
    · intro v pa pb h1 h2
      obtain ⟨w, c, hb0, hle⟩ := hme v pb pa h2 h1
      exact ⟨w, c, hb0, by omega⟩
    · dsimp only
      omega
    · intro hpt
      have := hm7 hpt
      dsimp only
      omega
    · intro hpf
      obtain ⟨hd, hb0, hdeep⟩ := hm8 hpf
      subst hd
      subst hb0
      refine ⟨rfl, rfl, rfl, ?_, ?_⟩
      · intro h
        cases h
      · intro _
        exact ⟨rfl, hdeep⟩

end Cmux

namespace Cmux

theorem bfsLoop_spec
    (g : Nat → List Nat) (N : List Nat) (a b : Nat)
    (hcl : ∀ v ∈ N, ∀ p ∈ g v, p ∈ N) :
    ∀ fuel s, BfsInv g N a b s →
      remaining N s.da + remaining N s.db + s.qa.length + s.qb.length ≤ fuel →
      BfsInv g N a b (bfsLoop g fuel s) ∧
      deepSide (bfsLoop g fuel s).qa (bfsLoop g fuel s).da (bfsLoop g fuel s).best ∧
      deepSide (bfsLoop g fuel s).qb (bfsLoop g fuel s).db (bfsLoop g fuel s).best := by
  intro fuel
  induction fuel with
  | zero =>
    intro s hI hm
    have hqa : s.qa = [] := List.length_eq_zero.mp (by omega)
    have hqb : s.qb = [] := List.length_eq_zero.mp (by omega)
    rw [bfsLoop]
    exact ⟨hI, Or.inl hqa, Or.inl hqb⟩
  | succ fuel ih =>
    intro s hI hm
    rw [bfsLoop]
    cases hnfa : decide (s.qa.length ≤ s.qb.length) with
    | true =>
      rcases h1 : stepSide g true s with ⟨p1, s1⟩
      dsimp only
      obtain ⟨hI1, hle1, hst1, hpf1⟩ := stepSide_spec g N a b true s p1 s1 h1 hcl hI
      cases p1 with
      | true =>
        have hm1 := hst1 rfl
        rw [if_pos rfl]
        exact ih s1 hI1 (by omega)
      | false =>
        rw [if_neg (by decide)]
        simp only [Bool.not_true]
        rcases h2 : stepSide g false s1 with ⟨p2, s2⟩
        dsimp only
        obtain ⟨hI2, hle2, hst2, hpf2⟩ := stepSide_spec g N a b false s1 p2 s2 h2 hcl hI1
        cases p2 with
        | true =>
          have hm2 := hst2 rfl
          rw [if_pos rfl]
          exact ih s2 hI2 (by omega)
        | false =>
          rw [if_neg (by decide)]
          obtain ⟨hda1, hdb1, hbe1, hA1, -⟩ := hpf1 rfl
          obtain ⟨hqb1, hdeepA1⟩ := hA1 rfl
          obtain ⟨hda2, hdb2, hbe2, -, hB2⟩ := hpf2 rfl
          obtain ⟨hqa2, hdeepB2⟩ := hB2 rfl
          refine ⟨hI2, ?_, hdeepB2⟩
          unfold deepSide
          rw [hqa2, hda2, hbe2]
          exact hdeepA1
    | false =>
      rcases h1 : stepSide g false s with ⟨p1, s1⟩
      dsimp only
      obtain ⟨hI1, hle1, hst1, hpf1⟩ := stepSide_spec g N a b false s p1 s1 h1 hcl hI
      cases p1 with
      | true =>
        have hm1 := hst1 rfl
        rw [if_pos rfl]
        exact ih s1 hI1 (by omega)
      | false =>
        rw [if_neg (by decide)]
        simp only [Bool.not_false]
        rcases h2 : stepSide g true s1 with ⟨p2, s2⟩
        dsimp only
        obtain ⟨hI2, hle2, hst2, hpf2⟩ := stepSide_spec g N a b true s1 p2 s2 h2 hcl hI1
        cases p2 with
        | true =>
          have hm2 := hst2 rfl
          rw [if_pos rfl]
          exact ih s2 hI2 (by omega)
        | false =>
          rw [if_neg (by decide)]
          obtain ⟨hda1, hdb1, hbe1, -, hB1⟩ := hpf1 rfl
          obtain ⟨hqa1, hdeepB1⟩ := hB1 rfl
          obtain ⟨hda2, hdb2, hbe2, hA2, -⟩ := hpf2 rfl
          obtain ⟨hqb2, hdeepA2⟩ := hA2 rfl
          refine ⟨hI2, hdeepA2, ?_⟩
          unfold deepSide
          rw [hqb2, hdb2, hbe2]
          exact hdeepB1

end Cmux

namespace Cmux

theorem lookupD_nil (v : Nat) : lookupD [] v = none := rfl

theorem side_reach_bound
    {g : Nat → List Nat} {N : List Nat} {r : Nat} {q : List Nat}
    {d : List (Nat × Nat)} {best : Option (Nat × Nat)}
    (hS : SideInv g N r q d (costOf best))
    (hdeep : deepSide q d best) :
    ∀ w p, PathLen g r w p →
      (∃ n, n ≤ p ∧ lookupD d w = some n) ∨
      (∃ wb cb, best = some (wb, cb) ∧ cb < p) := by
  intro w p hpath
  induction hpath with
  | refl =>
    exact Or.inl ⟨0, Nat.le_refl _, hS.rootMem⟩
  | step hu hmem ih =>
    rename_i u v' n
    rcases ih with ⟨m, hmle, hlu⟩ | ⟨wb, cb, hb, hlt⟩
    · by_cases huq : u ∈ q
      · rcases hdeep with hq | ⟨wb, cb, hb, hdepth⟩
        · rw [hq] at huq
          cases huq
        · have := hdepth u huq m hlu
          exact Or.inr ⟨wb, cb, hb, by omega⟩
      · rcases hS.procClosed u m hlu huq with hcov | ⟨c, hc, hclt⟩
        · obtain ⟨np, hnple, hnp⟩ := hcov v' hmem
          exact Or.inl ⟨np, by omega, hnp⟩
        · cases hbb : best with
          | none =>
            rw [hbb] at hc
            cases hc
          | some wc =>
            obtain ⟨w1, c1⟩ := wc
            rw [hbb] at hc
            simp only [costOf] at hc
            have hc1 : c1 = c := Option.some.inj hc
            exact Or.inr ⟨w1, c1, rfl, by omega⟩
    · exact Or.inr ⟨wb, cb, hb, by omega⟩

theorem SideInv_init
    {g : Nat → List Nat} {N : List Nat} {r : Nat} (hr : r ∈ N) :
    SideInv g N r [r] [(r, 0)] none := by
  refine ⟨?_, ?_, ?_, ?_, ?_, ?_, ?_, ?_, ?_⟩
  · intro v n h
    rw [lookupD_cons] at h
    by_cases hv : r = v
    · rw [if_pos hv] at h
      rw [← hv]
      have hn : n = 0 := (Option.some.inj h).symm
      rw [hn]
      exact PathLen.refl r
    · rw [if_neg hv, lookupD_nil] at h
      cases h
  · rw [lookupD_cons, if_pos rfl]
  · simp
  · intro v n h
    rw [lookupD_cons] at h
    by_cases hv : r = v
    · rw [← hv]
      exact hr
    · rw [if_neg hv, lookupD_nil] at h
      cases h
  · intro v hv
    rcases List.mem_cons.mp hv with h | h
    · rw [h, lookupD_cons, if_pos rfl]
      rfl
    · cases h
  · exact List.pairwise_singleton _ _
  · intro u hu v hv nu nv hnu hnv
    rcases List.mem_cons.mp hu with h | h
    · rcases List.mem_cons.mp hv with h' | h'
      · rw [h'] at hnv
        rw [lookupD_cons, if_pos rfl] at hnv
        have : nv = 0 := (Option.some.inj hnv).symm
        omega
      · cases h'
    · cases h
  · intro v n h hvq
    exfalso
    rw [lookupD_cons] at h
    by_cases hv : r = v
    · exact hvq (by rw [← hv]; exact List.mem_cons_self _ _)
    · rw [if_neg hv, lookupD_nil] at h
      cases h
  · intro v n h hvq
    exfalso
    rw [lookupD_cons] at h
    by_cases hv : r = v
    · exact hvq (by rw [← hv]; exact List.mem_cons_self _ _)
    · rw [if_neg hv, lookupD_nil] at h
      cases h

end Cmux

namespace Cmux

/-- A small commit DAG: tips 1 and 2, common ancestors 5 (depth 1 from
each tip) and 6 (depth 2 from each tip); 5 has the minimal depth sum. -/
def exGraph : Nat → List Nat
  | 1 => [3, 5]
  | 2 => [4, 5]
  | 3 => [6]
  | 4 => [6]
  | _ => []

/-- The commits of `exGraph`. -/
def exGraphN : List Nat := [1, 2, 3, 4, 5, 6]

/-- C7: for every commit DAG (commits `N`, closed under parents) and
every pair of commits `a b ∈ N`, `merge_base_bfs` returns some common
ancestor of `a` and `b` whose sum of depths from `a` and from `b` is
minimal over all common ancestors, whenever a common ancestor exists;
and it returns `a` itself when `a` and `b` have no common ancestor. -/
theorem merge_base_bfs_min
    (g : Nat → List Nat) (N : List Nat) (a b : Nat)
    (ha : a ∈ N) (hb : b ∈ N)
    (hcl : ∀ v ∈ N, ∀ p ∈ g v, p ∈ N) :
    ((∃ w p q, PathLen g a w p ∧ PathLen g b w q) →
      ∃ v pv qv, merge_base_bfs g N a b = some v ∧ PathLen g a v pv ∧ PathLen g b v qv ∧
        ∀ w p q, PathLen g a w p → PathLen g b w q → pv + qv ≤ p + q) ∧
    ((¬ ∃ w p q, PathLen g a w p ∧ PathLen g b w q) →
      merge_base_bfs g N a b = some a) := by
  by_cases hab : a = b
  · constructor
    · intro _
      refine ⟨a, 0, 0, ?_, PathLen.refl a, ?_, ?_⟩
      · unfold merge_base_bfs
        rw [if_pos hab]
      · rw [hab]
        exact PathLen.refl b
      · intro w p q _ _
        omega
    · intro _
      unfold merge_base_bfs
      rw [if_pos hab]
  · have hI0 : BfsInv g N a b
        { qa := [a], qb := [b], da := [(a, 0)], db := [(b, 0)], best := none } := by
      refine ⟨SideInv_init ha, SideInv_init hb, ?_, ?_⟩
      · intro v c h
        exact Option.noConfusion h
      · intro v pa pb h1 h2
        exfalso
        dsimp only at h1 h2
        rw [lookupD_cons] at h1 h2
        by_cases hva : a = v
        · by_cases hvb : b = v
          · exact hab (hva.trans hvb.symm)
          · rw [if_neg hvb, lookupD_nil] at h2
            exact Option.noConfusion h2
        · rw [if_neg hva, lookupD_nil] at h1
          exact Option.noConfusion h1
    have hm1 : remaining N [(a, 0)] ≤ N.length := List.countP_le_length _
    have hm2 : remaining N [(b, 0)] ≤ N.length := List.countP_le_length _
    obtain ⟨hIt, hdA, hdB⟩ := bfsLoop_spec g N a b hcl (2 * N.length + 2)
      { qa := [a], qb := [b], da := [(a, 0)], db := [(b, 0)], best := none } hI0
      (by dsimp only; simp only [List.length_cons, List.length_nil]; omega)
    generalize hT : bfsLoop g (2 * N.length + 2)
      { qa := [a], qb := [b], da := [(a, 0)], db := [(b, 0)], best := none } = t at hIt hdA hdB
    have hrun : merge_base_bfs g N a b =
        (match t.best with
         | some (v, _) => some v
         | none => some a) := by
      unfold merge_base_bfs
      rw [if_neg hab]
      dsimp only
      rw [hT]
    cases hbest : t.best with
    | none =>
      constructor
      · rintro ⟨w, p, q, hpw, hqw⟩
        exfalso
        rcases side_reach_bound hIt.sa hdA w p hpw with ⟨na, hnale, hlwa⟩ | ⟨wb, cb, hbeq, -⟩
        · rcases side_reach_bound hIt.sb hdB w q hqw with ⟨nb, hnble, hlwb⟩ | ⟨wb, cb, hbeq, -⟩
          · obtain ⟨w0, c0, hb0, -⟩ := hIt.meet w na nb hlwa hlwb
            rw [hbest] at hb0
            exact Option.noConfusion hb0
          · rw [hbest] at hbeq
            exact Option.noConfusion hbeq
        · rw [hbest] at hbeq
          exact Option.noConfusion hbeq
      · intro _
        rw [hrun, hbest]
    | some wc =>
      obtain ⟨v, c⟩ := wc
      obtain ⟨pa2, pb2, hla, hlb, hc⟩ := hIt.bestOk v c hbest
      have hsA : PathLen g a v pa2 := hIt.sa.sound v pa2 hla
      have hsB : PathLen g b v pb2 := hIt.sb.sound v pb2 hlb
      constructor
      · intro _
        refine ⟨v, pa2, pb2, ?_, hsA, hsB, ?_⟩
        · rw [hrun, hbest]
        · intro w p q hpw hqw
          rcases side_reach_bound hIt.sa hdA w p hpw with ⟨na, hnale, hlwa⟩ |
            ⟨wb, cb, hbeq, hltb⟩
          · rcases side_reach_bound hIt.sb hdB w q hqw with ⟨nb, hnble, hlwb⟩ |
              ⟨wb, cb, hbeq, hltb⟩
            · obtain ⟨w0, c0, hb0, hle0⟩ := hIt.meet w na nb hlwa hlwb
              rw [hbest] at hb0
              have hpair := Option.some.inj hb0
              have hcc : c = c0 := congrArg Prod.snd hpair
              omega
            · rw [hbest] at hbeq
              have hpair := Option.some.inj hbeq
              have hcc : c = cb := congrArg Prod.snd hpair
              omega
          · rw [hbest] at hbeq
            have hpair := Option.some.inj hbeq
            have hcc : c = cb := congrArg Prod.snd hpair
            omega
      · intro hno
        exact absurd ⟨v, pa2, pb2, hsA, hsB⟩ hno

/-- Witness for the C7 theorem: on the concrete DAG `exGraph` with tips
1 and 2, the theorem applies (all hypotheses hold by computation) and
the engine indeed returns the depth-sum-minimal common ancestor 5. -/
theorem merge_base_bfs_min_witness :
    merge_base_bfs exGraph exGraphN 1 2 = some 5 ∧
    (∃ v pv qv, merge_base_bfs exGraph exGraphN 1 2 = some v ∧
      PathLen exGraph 1 v pv ∧ PathLen exGraph 2 v qv ∧
      ∀ w p q, PathLen exGraph 1 w p → PathLen exGraph 2 w q → pv + qv ≤ p + q) := by
  constructor
  · rfl
  · exact (merge_base_bfs_min exGraph exGraphN 1 2 (by decide) (by decide) (by decide)).1
      ⟨5, 1, 1, PathLen.step (PathLen.refl 1) (by decide),
        PathLen.step (PathLen.refl 2) (by decide)⟩

end Cmux
